import Mathlib

/-!
Verification of the Symbol-Table repository (symtable.h, symtablehash.c,
symtablelist.c): a string-keyed associative container in two
implementations, a chained hash table with bucket-count growth and a
singly linked list.

Shallow embedding conventions:
* a C string key is the list of its byte values (`Key := List Nat`);
* an opaque `void*` value handle is a `Value := Nat`;
* `size_t` arithmetic wraps modulo `2 ^ 64` where overflow can occur
  (the hash accumulator);
* a chain of `struct Binding` nodes is a `List Binding`, head first;
* the bucket array is a `List (List Binding)` indexed by bucket number;
* a function that C callers observe through a returned pointer that may
  be `NULL` is modelled with `Option`;
* `assert` failure (abort) is modelled by `none` in the `_c` variants
  that take nullable arguments.
-/

set_option autoImplicit false

namespace SymbolTable

/-- A key is the list of byte values of the C string. -/
abbrev Key := List Nat

/-- An opaque value handle (`const void *`). -/
abbrev Value := Nat

/-- `size_t` overflow modulus: arithmetic wraps modulo `2 ^ 64`. -/
def SIZE_T_MOD : Nat := 2 ^ 64

/-- The fixed ascending sequence of bucket counts
(`primeBuckCounts` in symtablehash.c, lines 15-17). -/
def primeBuckCounts : List Nat :=
  [509, 1021, 2039, 4093, 8191, 16381, 32749, 65521]

/-- `struct Binding` without its intrusive `next` pointer: the chain
structure is carried by the enclosing `List`. -/
structure Binding where
  key : Key
  value : Value
deriving DecidableEq, Repr

/-- SymTable_hash (symtablehash.c, lines 51-63): polynomial rolling hash
with multiplier 65599 over the key bytes, accumulated in a `size_t`
(wrapping modulo `2 ^ 64` at each step), reduced modulo the bucket
count. -/
def SymTable_hash (pcKey : Key) (uBucketCount : Nat) : Nat :=
  (pcKey.foldl (fun uHash c => (uHash * 65599 + c) % SIZE_T_MOD) 0) % uBucketCount

/-- The first-index search of the `while` loop in SymTable_expand
(symtablehash.c, lines 137-139): position of `n` in a list, `none` when
absent (in C that would be a read past the end of the array). -/
def findPrimeIdx : List Nat → Nat → Option Nat
  | [], _ => none
  | p :: ps, n => if p = n then some 0 else (findPrimeIdx ps n).map (· + 1)

/-- Scan of a chain for a key, returning the first matching binding's
value (the lookup loop shared by SymTable_get / SymTable_contains /
SymTable_put's duplicate check). -/
def lookupChain : List Binding → Key → Option Value
  | [], _ => none
  | b :: bs, k => if b.key = k then some b.value else lookupChain bs k

/-- The duplicate-check / contains loop: is some binding's key equal to
`k`? -/
def containsChain (c : List Binding) (k : Key) : Bool :=
  (lookupChain c k).isSome

/-- Unlink of the first binding whose key is `k` (SymTable_remove's loop,
handling head-of-chain and interior nodes alike); returns the remaining
chain and the removed binding's value. -/
def removeChain : List Binding → Key → List Binding × Option Value
  | [], _ => ([], none)
  | b :: bs, k =>
    if b.key = k then (bs, some b.value)
    else
      let r := removeChain bs k
      (b :: r.1, r.2)

/-- In-place value replacement of the first binding whose key is `k`
(SymTable_replace's loop); returns the updated chain and the old
value. -/
def replaceChain : List Binding → Key → Value → List Binding × Option Value
  | [], _, _ => ([], none)
  | b :: bs, k, v =>
    if b.key = k then ({ b with value := v } :: bs, some b.value)
    else
      let r := replaceChain bs k v
      (b :: r.1, r.2)

/-- Read of bucket `i` from the bucket array (`oSymTable->buckets[i]`);
out of range yields the empty chain. -/
def getChain : List (List Binding) → Nat → List Binding
  | [], _ => []
  | c :: _, 0 => c
  | _ :: cs, i + 1 => getChain cs i

/-- Write of bucket `i` in the bucket array
(`oSymTable->buckets[i] = c`). -/
def setChain : List (List Binding) → Nat → List Binding → List (List Binding)
  | [], _, _ => []
  | _ :: cs, 0, c => c :: cs
  | c0 :: cs, i + 1, c => c0 :: setChain cs i c

/-- Push of a binding at the head of bucket `i` (the two-line idiom
`b->next = buckets[i]; buckets[i] = b`). -/
def prependAt (bs : List (List Binding)) (i : Nat) (b : Binding) :
    List (List Binding) :=
  setChain bs i (b :: getChain bs i)

namespace Hash

/-- `struct SymTable` of symtablehash.c (lines 37-47). -/
structure SymTable where
  buckets : List (List Binding)
  length : Nat
  numBuckets : Nat
deriving DecidableEq, Repr

/-- SymTable_new (symtablehash.c, lines 65-91), successful-allocation
path: `primeBuckCounts[0] = 509` empty buckets, zero bindings. -/
def SymTable_new : SymTable :=
  { buckets := List.replicate 509 [], length := 0, numBuckets := 509 }

/-- SymTable_getLength (symtablehash.c, lines 117-120). -/
def SymTable_getLength (t : SymTable) : Nat := t.length

/-- Inner rehash loop of SymTable_expand (symtablehash.c, lines 152-166):
each binding of one old chain, taken front to back, is pushed at the head
of its new bucket. -/
def rehashChain (newN : Nat) (bs : List (List Binding)) (c : List Binding) :
    List (List Binding) :=
  c.foldl (fun nbs b => prependAt nbs (SymTable_hash b.key newN) b) bs

/-- Outer rehash loop of SymTable_expand: old buckets in index order,
starting from a freshly zeroed array of `newN` buckets. -/
def rehashAll (newN : Nat) (old : List (List Binding)) :
    List (List Binding) :=
  old.foldl (rehashChain newN) (List.replicate newN [])

/-- SymTable_expand (symtablehash.c, lines 126-174), successful-allocation
path: look up the current bucket count in `primeBuckCounts`, take the next
entry as the new count, rehash every binding into a fresh array of that
size, and install it. The two `none` fallbacks mark reads past the end of
the C array, shown unreachable from reachable states in the safety
theorems. -/
def SymTable_expand (t : SymTable) : SymTable :=
  match findPrimeIdx primeBuckCounts t.numBuckets with
  | none => t
  | some index =>
    match primeBuckCounts.get? (index + 1) with
    | none => t
    | some newNumBuckets =>
      { buckets := rehashAll newNumBuckets t.buckets,
        length := t.length,
        numBuckets := newNumBuckets }

/-- The growth trigger at the start of SymTable_put (symtablehash.c,
lines 185-193): expand exactly when the binding count strictly exceeds
the bucket count and the bucket count is below
`primeBuckCounts[maximum-1] = 65521`. -/
def SymTable_maybeExpand (t : SymTable) : SymTable :=
  if t.numBuckets < t.length then
    if t.numBuckets < 65521 then SymTable_expand t else t
  else t

/-- SymTable_put (symtablehash.c, lines 176-242), successful-allocation
path: maybe expand, then reject a duplicate key with result 0, else link
a new binding at the head of its bucket, bump the count and return 1. -/
def SymTable_put (t : SymTable) (pcKey : Key) (pvValue : Value) :
    SymTable × Nat :=
  let t1 := SymTable_maybeExpand t
  let bucket := SymTable_hash pcKey t1.numBuckets
  if containsChain (getChain t1.buckets bucket) pcKey then (t1, 0)
  else
    ({ buckets := prependAt t1.buckets bucket ⟨pcKey, pvValue⟩,
       length := t1.length + 1,
       numBuckets := t1.numBuckets }, 1)

/-- SymTable_get (symtablehash.c, lines 293-309): scan the key's bucket,
`none` models the `NULL` not-found return. -/
def SymTable_get (t : SymTable) (pcKey : Key) : Option Value :=
  lookupChain (getChain t.buckets (SymTable_hash pcKey t.numBuckets)) pcKey

/-- SymTable_contains (symtablehash.c, lines 273-291). -/
def SymTable_contains (t : SymTable) (pcKey : Key) : Bool :=
  containsChain (getChain t.buckets (SymTable_hash pcKey t.numBuckets)) pcKey

/-- SymTable_replace (symtablehash.c, lines 245-271): on a hit the
binding's value is overwritten in place and the old value returned; on a
miss the table is unchanged and `NULL` returned. -/
def SymTable_replace (t : SymTable) (pcKey : Key) (pvValue : Value) :
    SymTable × Option Value :=
  let bucket := SymTable_hash pcKey t.numBuckets
  let r := replaceChain (getChain t.buckets bucket) pcKey pvValue
  match r.2 with
  | none => (t, none)
  | some oldValue =>
    ({ t with buckets := setChain t.buckets bucket r.1 }, some oldValue)

/-- SymTable_remove (symtablehash.c, lines 311-352): unlink the key's
binding from its chain, decrement the count, return the removed value;
`none` on a miss with the table unchanged. -/
def SymTable_remove (t : SymTable) (pcKey : Key) :
    SymTable × Option Value :=
  let bucket := SymTable_hash pcKey t.numBuckets
  let r := removeChain (getChain t.buckets bucket) pcKey
  match r.2 with
  | none => (t, none)
  | some removedValue =>
    ({ buckets := setChain t.buckets bucket r.1,
       length := t.length - 1,
       numBuckets := t.numBuckets }, some removedValue)

/-- SymTable_map (symtablehash.c, lines 354-371) as the sequence of
`(key, value)` arguments passed to `pfApply`: buckets in index order,
each chain front to back. -/
def SymTable_map (t : SymTable) : List (Key × Value) :=
  t.buckets.foldl
    (fun acc c => c.foldl (fun acc2 b => acc2 ++ [(b.key, b.value)]) acc) []

/-- SymTable_free (symtablehash.c, lines 93-115) on a nullable argument:
`assert(oSymTable != NULL)` aborts on `NULL` (modelled `none`); otherwise
the call returns normally. -/
def SymTable_free_c : Option SymTable → Option Unit
  | none => none
  | some _ => some ()

/-- SymTable_map (symtablehash.c, lines 354-371) on nullable arguments:
`assert(oSymTable != NULL)` and `assert(pfApply != NULL)` abort (modelled
`none`) when either is `NULL`; otherwise the traversal runs. The
callback pointer is modelled by presence alone since the trace captures
every call made to it. -/
def SymTable_map_c (ot : Option SymTable) (pfApply : Option Unit) :
    Option (List (Key × Value)) :=
  match ot, pfApply with
  | some t, some _ => some (SymTable_map t)
  | _, _ => none

end Hash

namespace LL

/-- `struct SymTable` of symtablelist.c (lines 27-33). -/
structure SymTable where
  firstBinding : List Binding
  length : Nat
deriving DecidableEq, Repr

/-- SymTable_new (symtablelist.c, lines 35-51), successful-allocation
path. -/
def SymTable_new : SymTable := { firstBinding := [], length := 0 }

/-- SymTable_getLength (symtablelist.c, lines 72-75). -/
def SymTable_getLength (t : SymTable) : Nat := t.length

/-- SymTable_put (symtablelist.c, lines 77-129), successful-allocation
path: reject a duplicate with 0, else link a new binding at the list
head and return 1. -/
def SymTable_put (t : SymTable) (pcKey : Key) (pvValue : Value) :
    SymTable × Nat :=
  if containsChain t.firstBinding pcKey then (t, 0)
  else
    ({ firstBinding := ⟨pcKey, pvValue⟩ :: t.firstBinding,
       length := t.length + 1 }, 1)

/-- SymTable_get (symtablelist.c, lines 176-192). -/
def SymTable_get (t : SymTable) (pcKey : Key) : Option Value :=
  lookupChain t.firstBinding pcKey

/-- SymTable_contains (symtablelist.c, lines 159-174). -/
def SymTable_contains (t : SymTable) (pcKey : Key) : Bool :=
  containsChain t.firstBinding pcKey

/-- SymTable_replace (symtablelist.c, lines 131-157). -/
def SymTable_replace (t : SymTable) (pcKey : Key) (pvValue : Value) :
    SymTable × Option Value :=
  let r := replaceChain t.firstBinding pcKey pvValue
  match r.2 with
  | none => (t, none)
  | some oldValue =>
    ({ t with firstBinding := r.1 }, some oldValue)

/-- SymTable_remove (symtablelist.c, lines 194-233). -/
def SymTable_remove (t : SymTable) (pcKey : Key) :
    SymTable × Option Value :=
  let r := removeChain t.firstBinding pcKey
  match r.2 with
  | none => (t, none)
  | some removedValue =>
    ({ firstBinding := r.1, length := t.length - 1 }, some removedValue)

/-- SymTable_map (symtablelist.c, lines 235-248) as the sequence of
`(key, value)` arguments passed to `pfApply`: the list front to back,
most recently inserted first. -/
def SymTable_map (t : SymTable) : List (Key × Value) :=
  t.firstBinding.foldl (fun acc b => acc ++ [(b.key, b.value)]) []

/-- SymTable_free (symtablelist.c, lines 53-70) on a nullable argument:
`assert(oSymTable != NULL)` aborts on `NULL` (modelled `none`). -/
def SymTable_free_c : Option SymTable → Option Unit
  | none => none
  | some _ => some ()

/-- SymTable_map (symtablelist.c, lines 235-248) on nullable arguments:
both asserts must pass for the traversal to run. -/
def SymTable_map_c (ot : Option SymTable) (pfApply : Option Unit) :
    Option (List (Key × Value)) :=
  match ot, pfApply with
  | some t, some _ => some (SymTable_map t)
  | _, _ => none

/-- Well-formedness of a linked-list table: keys are unique and the
`length` field counts the bindings. Both hold in every state the
interface can produce. -/
def WF (t : SymTable) : Prop :=
  (t.firstBinding.map Binding.key).Nodup ∧
  t.length = t.firstBinding.length

end LL

namespace Hash

/-- Well-formedness of a hash table, the representation invariant of
symtablehash.c: the bucket count is one of the fixed prime sequence, the
array has that many buckets, every binding sits in the bucket its key
hashes to, keys are unique, and the `length` field counts the
bindings. -/
def WF (t : SymTable) : Prop :=
  t.numBuckets ∈ primeBuckCounts ∧
  t.buckets.length = t.numBuckets ∧
  (∀ i < t.buckets.length,
    ∀ b ∈ getChain t.buckets i, SymTable_hash b.key t.numBuckets = i) ∧
  (t.buckets.flatten.map Binding.key).Nodup ∧
  t.length = t.buckets.flatten.length

end Hash

/-- One client call of the common interface (symtable.h). -/
inductive Op where
  | put (k : Key) (v : Value)
  | get (k : Key)
  | contains (k : Key)
  | replace (k : Key) (v : Value)
  | remove (k : Key)
  | size
  | traverse
deriving DecidableEq, Repr

/-- The value an operation returns to the client; `trace` is the
sequence of `(key, value)` arguments SymTable_map passes to the
callback. -/
inductive Out where
  | res (n : Nat)
  | val (v : Option Value)
  | bool (b : Bool)
  | count (n : Nat)
  | trace (tr : List (Key × Value))
deriving DecidableEq, Repr

/-- One step of the hash-table implementation. -/
def hashStep (t : Hash.SymTable) : Op → Hash.SymTable × Out
  | .put k v => ((Hash.SymTable_put t k v).1, .res (Hash.SymTable_put t k v).2)
  | .get k => (t, .val (Hash.SymTable_get t k))
  | .contains k => (t, .bool (Hash.SymTable_contains t k))
  | .replace k v =>
      ((Hash.SymTable_replace t k v).1, .val (Hash.SymTable_replace t k v).2)
  | .remove k => ((Hash.SymTable_remove t k).1, .val (Hash.SymTable_remove t k).2)
  | .size => (t, .count (Hash.SymTable_getLength t))
  | .traverse => (t, .trace (Hash.SymTable_map t))

/-- One step of the linked-list implementation. -/
def listStep (t : LL.SymTable) : Op → LL.SymTable × Out
  | .put k v => ((LL.SymTable_put t k v).1, .res (LL.SymTable_put t k v).2)
  | .get k => (t, .val (LL.SymTable_get t k))
  | .contains k => (t, .bool (LL.SymTable_contains t k))
  | .replace k v =>
      ((LL.SymTable_replace t k v).1, .val (LL.SymTable_replace t k v).2)
  | .remove k => ((LL.SymTable_remove t k).1, .val (LL.SymTable_remove t k).2)
  | .size => (t, .count (LL.SymTable_getLength t))
  | .traverse => (t, .trace (LL.SymTable_map t))

/-- Outputs of a call sequence against the hash-table implementation. -/
def hashRun : Hash.SymTable → List Op → List Out
  | _, [] => []
  | t, op :: ops => (hashStep t op).2 :: hashRun (hashStep t op).1 ops

/-- Outputs of a call sequence against the linked-list implementation. -/
def listRun : LL.SymTable → List Op → List Out
  | _, [] => []
  | t, op :: ops => (listStep t op).2 :: listRun (listStep t op).1 ops

/-- The hash-table state after a call sequence. -/
def hashExec : Hash.SymTable → List Op → Hash.SymTable
  | t, [] => t
  | t, op :: ops => hashExec (hashStep t op).1 ops

/-- A hash-table state the client can reach from a fresh table. -/
def Reachable (t : Hash.SymTable) : Prop :=
  ∃ ops, hashExec Hash.SymTable_new ops = t

/-- Output correspondence for the implementation-equivalence theorem:
equal outputs, except that the two traversal traces need only be
permutations of one another. -/
def outEquiv : Out → Out → Prop
  | .trace tr1, .trace tr2 => tr1.Perm tr2
  | o1, o2 => o1 = o2

/-- Coupling invariant between the two implementations: both are
well-formed, report the same size, and bind the same value to every
key. -/
def Inv (t : Hash.SymTable) (lt : LL.SymTable) : Prop :=
  Hash.WF t ∧ LL.WF lt ∧ t.length = lt.length ∧
  ∀ k, Hash.SymTable_get t k = LL.SymTable_get lt k

/-- The unreduced polynomial value of a key: Horner evaluation of the
key's bytes at 65599, with no wrap-around. -/
def polyAccum (pcKey : Key) : Nat :=
  pcKey.foldl (fun uHash c => uHash * 65599 + c) 0

/-! ### Chain-level lemmas -/

theorem lookupChain_cons_ne (b : Binding) (c : List Binding) (k : Key)
    (h : b.key ≠ k) : lookupChain (b :: c) k = lookupChain c k := by
  simp [lookupChain, h]

theorem lookupChain_eq_none_iff (c : List Binding) (k : Key) :
    lookupChain c k = none ↔ ∀ b ∈ c, b.key ≠ k := by
  induction c with
  | nil => simp [lookupChain]
  | cons b bs ih =>
    by_cases hb : b.key = k
    · simp [lookupChain, hb]
    · simp [lookupChain, hb, ih]

theorem lookupChain_isSome_iff (c : List Binding) (k : Key) :
    (lookupChain c k).isSome = true ↔ ∃ b ∈ c, b.key = k := by
  induction c with
  | nil => simp [lookupChain]
  | cons b bs ih =>
    by_cases hb : b.key = k
    · simp [lookupChain, hb]
    · simp [lookupChain, hb, ih]

theorem lookupChain_eq_some_iff (c : List Binding) (k : Key) (v : Value)
    (hnd : (c.map Binding.key).Nodup) :
    lookupChain c k = some v ↔ (⟨k, v⟩ : Binding) ∈ c := by
  induction c with
  | nil => simp [lookupChain]
  | cons b bs ih =>
    rw [List.map_cons, List.nodup_cons] at hnd
    by_cases hb : b.key = k
    · simp only [lookupChain, hb, if_pos rfl]
      constructor
      · rintro hv
        have : b = ⟨k, v⟩ := by
          cases b; cases hv; simp_all
        simp [← this]
      · intro hmem
        rcases List.mem_cons.mp hmem with heq | hmem2
        · cases b; cases heq; rfl
        · exact absurd (List.mem_map.mpr ⟨⟨k, v⟩, hmem2, hb.symm⟩) hnd.1
    · rw [lookupChain_cons_ne b bs k hb, ih hnd.2]
      constructor
      · exact fun h => List.mem_cons_of_mem _ h
      · intro hmem
        rcases List.mem_cons.mp hmem with heq | hmem2
        · exact absurd (congrArg Binding.key heq).symm hb
        · exact hmem2

theorem lookupChain_perm (c1 c2 : List Binding) (h : c1.Perm c2)
    (hnd : (c1.map Binding.key).Nodup) (k : Key) :
    lookupChain c1 k = lookupChain c2 k := by
  have hnd2 : (c2.map Binding.key).Nodup := ((h.map Binding.key).nodup_iff).mp hnd
  cases hv : lookupChain c1 k with
  | some v =>
    rw [lookupChain_eq_some_iff c1 k v hnd] at hv
    exact ((lookupChain_eq_some_iff c2 k v hnd2).mpr (h.mem_iff.mp hv)).symm
  | none =>
    rw [lookupChain_eq_none_iff] at hv
    exact ((lookupChain_eq_none_iff c2 k).mpr
      (fun b hb => hv b (h.mem_iff.mpr hb))).symm

theorem removeChain_snd (c : List Binding) (k : Key) :
    (removeChain c k).2 = lookupChain c k := by
  induction c with
  | nil => rfl
  | cons b bs ih =>
    by_cases hb : b.key = k
    · simp [removeChain, lookupChain, hb]
    · simp [removeChain, lookupChain, hb, ih]

theorem removeChain_fst_of_none (c : List Binding) (k : Key)
    (h : lookupChain c k = none) : (removeChain c k).1 = c := by
  induction c with
  | nil => rfl
  | cons b bs ih =>
    rw [lookupChain_eq_none_iff] at h
    have hb : b.key ≠ k := h b (List.mem_cons_self b bs)
    have hbs : lookupChain bs k = none :=
      (lookupChain_eq_none_iff bs k).mpr fun b' hb' => h b' (List.mem_cons_of_mem _ hb')
    simp [removeChain, hb, ih hbs]

theorem removeChain_sublist (c : List Binding) (k : Key) :
    (removeChain c k).1.Sublist c := by
  induction c with
  | nil => simp [removeChain]
  | cons b bs ih =>
    by_cases hb : b.key = k
    · simp [removeChain, hb]
    · simpa [removeChain, hb] using ih.cons₂ b

theorem removeChain_perm (c : List Binding) (k : Key) (v : Value)
    (h : lookupChain c k = some v) :
    c.Perm ((⟨k, v⟩ : Binding) :: (removeChain c k).1) := by
  induction c with
  | nil => simp [lookupChain] at h
  | cons b bs ih =>
    by_cases hb : b.key = k
    · simp only [lookupChain, hb, if_pos rfl, Option.some.injEq] at h
      have hbkv : b = ⟨k, v⟩ := by cases b; simp_all
      simp [removeChain, hb, hbkv]
    · rw [lookupChain_cons_ne b bs k hb] at h
      have := (ih h).cons b
      simp only [removeChain, hb, if_neg hb]
      exact this.trans (List.Perm.swap _ _ _)

theorem lookupChain_removeChain_self (c : List Binding) (k : Key)
    (hnd : (c.map Binding.key).Nodup) :
    lookupChain (removeChain c k).1 k = none := by
  induction c with
  | nil => simp [removeChain, lookupChain]
  | cons b bs ih =>
    rw [List.map_cons, List.nodup_cons] at hnd
    by_cases hb : b.key = k
    · have hrc : (removeChain (b :: bs) k).1 = bs := by simp [removeChain, hb]
      rw [hrc, lookupChain_eq_none_iff]
      intro b' hb' hk
      exact hnd.1 (by rw [hb, ← hk]; exact List.mem_map.mpr ⟨b', hb', rfl⟩)
    · have hrc : (removeChain (b :: bs) k).1 = b :: (removeChain bs k).1 := by
        simp [removeChain, hb]
      rw [hrc, lookupChain_cons_ne b _ k hb]
      exact ih hnd.2

theorem lookupChain_removeChain_ne (c : List Binding) (k k' : Key)
    (h : k' ≠ k) :
    lookupChain (removeChain c k).1 k' = lookupChain c k' := by
  induction c with
  | nil => rfl
  | cons b bs ih =>
    by_cases hb : b.key = k
    · have hrc : (removeChain (b :: bs) k).1 = bs := by simp [removeChain, hb]
      have hbk' : b.key ≠ k' := by rw [hb]; exact fun hh => h hh.symm
      rw [hrc, lookupChain_cons_ne b bs k' hbk']
    · have hrc : (removeChain (b :: bs) k).1 = b :: (removeChain bs k).1 := by
        simp [removeChain, hb]
      rw [hrc]
      by_cases hb' : b.key = k'
      · simp [lookupChain, hb']
      · rw [lookupChain_cons_ne _ _ k' hb', lookupChain_cons_ne b bs k' hb']
        exact ih

theorem replaceChain_snd (c : List Binding) (k : Key) (v : Value) :
    (replaceChain c k v).2 = lookupChain c k := by
  induction c with
  | nil => rfl
  | cons b bs ih =>
    by_cases hb : b.key = k
    · simp [replaceChain, lookupChain, hb]
    · simp [replaceChain, lookupChain, hb, ih]

theorem replaceChain_fst_of_none (c : List Binding) (k : Key) (v : Value)
    (h : lookupChain c k = none) : (replaceChain c k v).1 = c := by
  induction c with
  | nil => rfl
  | cons b bs ih =>
    rw [lookupChain_eq_none_iff] at h
    have hb : b.key ≠ k := h b (List.mem_cons_self b bs)
    have hbs : lookupChain bs k = none :=
      (lookupChain_eq_none_iff bs k).mpr fun b' hb' => h b' (List.mem_cons_of_mem _ hb')
    simp [replaceChain, hb, ih hbs]

theorem replaceChain_map_key (c : List Binding) (k : Key) (v : Value) :
    (replaceChain c k v).1.map Binding.key = c.map Binding.key := by
  induction c with
  | nil => rfl
  | cons b bs ih =>
    by_cases hb : b.key = k
    · simp [replaceChain, hb]
    · simp [replaceChain, hb, ih]

theorem replaceChain_length (c : List Binding) (k : Key) (v : Value) :
    (replaceChain c k v).1.length = c.length := by
  have := congrArg List.length (replaceChain_map_key c k v)
  simpa using this

theorem lookupChain_replaceChain_self (c : List Binding) (k : Key) (v v0 : Value)
    (h : lookupChain c k = some v0) :
    lookupChain (replaceChain c k v).1 k = some v := by
  induction c with
  | nil => simp [lookupChain] at h
  | cons b bs ih =>
    by_cases hb : b.key = k
    · simp [replaceChain, hb, lookupChain]
    · rw [lookupChain_cons_ne b bs k hb] at h
      simp only [replaceChain, if_neg hb]
      rw [lookupChain_cons_ne b _ k hb]
      exact ih h

theorem lookupChain_replaceChain_ne (c : List Binding) (k k' : Key) (v : Value)
    (h : k' ≠ k) :
    lookupChain (replaceChain c k v).1 k' = lookupChain c k' := by
  induction c with
  | nil => rfl
  | cons b bs ih =>
    by_cases hb : b.key = k
    · have hrc : (replaceChain (b :: bs) k v).1 = { b with value := v } :: bs := by
        simp [replaceChain, hb]
      have hbk' : b.key ≠ k' := by rw [hb]; exact fun hh => h hh.symm
      rw [hrc, lookupChain_cons_ne b bs k' hbk',
        lookupChain_cons_ne ⟨b.key, v⟩ bs k' hbk']
    · have hrc : (replaceChain (b :: bs) k v).1 = b :: (replaceChain bs k v).1 := by
        simp [replaceChain, hb]
      rw [hrc]
      by_cases hb' : b.key = k'
      · simp [lookupChain, hb']
      · rw [lookupChain_cons_ne _ _ k' hb', lookupChain_cons_ne b bs k' hb']
        exact ih

/-! ### Bucket-array lemmas -/

theorem setChain_length (bs : List (List Binding)) (i : Nat) (c : List Binding) :
    (setChain bs i c).length = bs.length := by
  induction bs generalizing i with
  | nil => rfl
  | cons c0 cs ih =>
    cases i with
    | zero => rfl
    | succ j => simp [setChain, ih]

theorem getChain_setChain_self (bs : List (List Binding)) (i : Nat)
    (c : List Binding) (h : i < bs.length) :
    getChain (setChain bs i c) i = c := by
  induction bs generalizing i with
  | nil => simp at h
  | cons c0 cs ih =>
    cases i with
    | zero => rfl
    | succ j => exact ih j (Nat.lt_of_succ_lt_succ h)

theorem getChain_setChain_ne (bs : List (List Binding)) (i : Nat)
    (c : List Binding) (j : Nat) (h : j ≠ i) :
    getChain (setChain bs i c) j = getChain bs j := by
  induction bs generalizing i j with
  | nil => rfl
  | cons c0 cs ih =>
    cases i with
    | zero =>
      cases j with
      | zero => exact absurd rfl h
      | succ j' => rfl
    | succ i' =>
      cases j with
      | zero => rfl
      | succ j' => exact ih i' j' (fun hh => h (by rw [hh]))

theorem getChain_eq_nil_of_le (bs : List (List Binding)) (i : Nat)
    (h : bs.length ≤ i) : getChain bs i = [] := by
  induction bs generalizing i with
  | nil => rfl
  | cons c0 cs ih =>
    cases i with
    | zero => simp at h
    | succ j => exact ih j (Nat.le_of_succ_le_succ h)

theorem mem_getChain_mem_flatten (bs : List (List Binding)) (i : Nat)
    (b : Binding) (h : b ∈ getChain bs i) : b ∈ bs.flatten := by
  induction bs generalizing i with
  | nil => simp [getChain] at h
  | cons c0 cs ih =>
    rw [List.flatten_cons, List.mem_append]
    cases i with
    | zero => exact Or.inl h
    | succ j => exact Or.inr (ih j h)

theorem mem_flatten_iff_getChain (bs : List (List Binding)) (b : Binding) :
    b ∈ bs.flatten ↔ ∃ i, b ∈ getChain bs i := by
  constructor
  · intro h
    induction bs with
    | nil => simp at h
    | cons c0 cs ih =>
      rw [List.flatten_cons, List.mem_append] at h
      rcases h with h | h
      · exact ⟨0, h⟩
      · obtain ⟨i, hi⟩ := ih h
        exact ⟨i + 1, hi⟩
  · rintro ⟨i, hi⟩
    exact mem_getChain_mem_flatten bs i b hi

theorem flatten_setChain (bs : List (List Binding)) (i : Nat)
    (c : List Binding) (h : i < bs.length) :
    ∃ l1 l2, bs.flatten = l1 ++ getChain bs i ++ l2 ∧
      (setChain bs i c).flatten = l1 ++ c ++ l2 := by
  induction bs generalizing i with
  | nil => simp at h
  | cons c0 cs ih =>
    cases i with
    | zero =>
      exact ⟨[], cs.flatten, by simp [getChain], by simp [setChain]⟩
    | succ j =>
      obtain ⟨l1, l2, h1, h2⟩ := ih j (Nat.lt_of_succ_lt_succ h)
      refine ⟨c0 ++ l1, l2, ?_, ?_⟩
      · rw [List.flatten_cons, h1]
        simp [getChain]
      · rw [show setChain (c0 :: cs) (j + 1) c = c0 :: setChain cs j c from rfl,
          List.flatten_cons, h2]
        simp

theorem flatten_decomp (bs : List (List Binding)) (i : Nat) (h : i < bs.length) :
    ∃ l1 l2, bs.flatten = l1 ++ getChain bs i ++ l2 := by
  obtain ⟨l1, l2, h1, _⟩ := flatten_setChain bs i (getChain bs i) h
  exact ⟨l1, l2, h1⟩

theorem prependAt_flatten_perm (bs : List (List Binding)) (i : Nat) (b : Binding)
    (h : i < bs.length) :
    (prependAt bs i b).flatten.Perm (b :: bs.flatten) := by
  obtain ⟨l1, l2, h1, h2⟩ := flatten_setChain bs i (b :: getChain bs i) h
  rw [prependAt, h2, h1]
  have hm : (l1 ++ (b :: (getChain bs i ++ l2))).Perm
      (b :: (l1 ++ (getChain bs i ++ l2))) := List.perm_middle
  simp only [List.append_assoc, List.cons_append]
  exact hm

theorem getChain_replicate_nil (n i : Nat) :
    getChain (List.replicate n ([] : List Binding)) i = [] := by
  induction n generalizing i with
  | zero => rfl
  | succ m ih =>
    cases i with
    | zero => rfl
    | succ j => exact ih j

theorem flatten_replicate_nil (n : Nat) :
    (List.replicate n ([] : List Binding)).flatten = [] := by
  induction n with
  | zero => rfl
  | succ m ih => simp [List.replicate, ih]

/-! ### Hash function and invariant facts -/

theorem primeBuckCounts_pos : ∀ n ∈ primeBuckCounts, 0 < n := by decide

theorem hash_lt (k : Key) (n : Nat) (h : 0 < n) : SymTable_hash k n < n :=
  Nat.mod_lt _ h

/-- Membership in the prime sequence determines the index the expansion
loop finds, the successor entry it reads, and that the successor entry
is a strictly larger member of the sequence (except at the maximum). -/
theorem primeBuckCounts_next (n : Nat) (hmem : n ∈ primeBuckCounts)
    (hlt : n < 65521) :
    ∃ i newN, findPrimeIdx primeBuckCounts n = some i ∧
      primeBuckCounts.get? (i + 1) = some newN ∧
      newN ∈ primeBuckCounts ∧ n < newN := by
  rw [primeBuckCounts] at hmem
  simp only [List.mem_cons, List.not_mem_nil, or_false] at hmem
  rcases hmem with h | h | h | h | h | h | h | h
  · exact ⟨0, 1021, by rw [h]; rfl, rfl, by decide, by rw [h]; decide⟩
  · exact ⟨1, 2039, by rw [h]; rfl, rfl, by decide, by rw [h]; decide⟩
  · exact ⟨2, 4093, by rw [h]; rfl, rfl, by decide, by rw [h]; decide⟩
  · exact ⟨3, 8191, by rw [h]; rfl, rfl, by decide, by rw [h]; decide⟩
  · exact ⟨4, 16381, by rw [h]; rfl, rfl, by decide, by rw [h]; decide⟩
  · exact ⟨5, 32749, by rw [h]; rfl, rfl, by decide, by rw [h]; decide⟩
  · exact ⟨6, 65521, by rw [h]; rfl, rfl, by decide, by rw [h]; decide⟩
  · exact absurd hlt (by rw [h]; decide)

namespace Hash

theorem WF_numBuckets_pos (t : SymTable) (hWF : WF t) : 0 < t.numBuckets :=
  primeBuckCounts_pos _ hWF.1

theorem WF_placed_all (t : SymTable) (hWF : WF t) :
    ∀ i, ∀ b ∈ getChain t.buckets i, SymTable_hash b.key t.numBuckets = i := by
  intro i b hb
  by_cases h : i < t.buckets.length
  · exact hWF.2.2.1 i h b hb
  · rw [getChain_eq_nil_of_le _ i (Nat.le_of_not_lt h)] at hb
    simp at hb

theorem chain_keys_nodup (t : SymTable) (hWF : WF t) (i : Nat) :
    ((getChain t.buckets i).map Binding.key).Nodup := by
  by_cases h : i < t.buckets.length
  · obtain ⟨l1, l2, hd⟩ := flatten_decomp t.buckets i h
    have hnd := hWF.2.2.2.1
    rw [hd, List.map_append, List.map_append] at hnd
    obtain ⟨h1, -, -⟩ := List.nodup_append.mp hnd
    obtain ⟨-, h2, -⟩ := List.nodup_append.mp h1
    exact h2
  · rw [getChain_eq_nil_of_le _ i (Nat.le_of_not_lt h)]
    simp

theorem get_eq_some_iff (t : SymTable) (hWF : WF t) (k : Key) (v : Value) :
    SymTable_get t k = some v ↔ (⟨k, v⟩ : Binding) ∈ t.buckets.flatten := by
  unfold SymTable_get
  rw [lookupChain_eq_some_iff _ _ _ (chain_keys_nodup t hWF _)]
  constructor
  · exact mem_getChain_mem_flatten _ _ _
  · intro hmem
    obtain ⟨i, hi⟩ := (mem_flatten_iff_getChain _ _).mp hmem
    have hpl : SymTable_hash k t.numBuckets = i := WF_placed_all t hWF i _ hi
    rwa [hpl]

theorem get_eq_none_iff (t : SymTable) (hWF : WF t) (k : Key) :
    SymTable_get t k = none ↔ ∀ b ∈ t.buckets.flatten, b.key ≠ k := by
  unfold SymTable_get
  rw [lookupChain_eq_none_iff]
  constructor
  · intro h b hb hk
    obtain ⟨i, hi⟩ := (mem_flatten_iff_getChain _ _).mp hb
    have hpl := WF_placed_all t hWF i b hi
    rw [hk] at hpl
    rw [← hpl] at hi
    exact h b hi hk
  · intro h b hb
    exact h b (mem_getChain_mem_flatten _ _ _ hb)

theorem get_eq_lookup_flatten (t : SymTable) (hWF : WF t) (k : Key) :
    SymTable_get t k = lookupChain t.buckets.flatten k := by
  cases hv : lookupChain t.buckets.flatten k with
  | some v =>
    rw [lookupChain_eq_some_iff _ _ _ hWF.2.2.2.1] at hv
    exact (get_eq_some_iff t hWF k v).mpr hv
  | none =>
    rw [lookupChain_eq_none_iff] at hv
    exact (get_eq_none_iff t hWF k).mpr hv

theorem contains_eq_isSome (t : SymTable) (k : Key) :
    SymTable_contains t k = (SymTable_get t k).isSome := rfl

/-! ### Rehash and expansion lemmas -/

theorem prependAt_length (bs : List (List Binding)) (i : Nat) (b : Binding) :
    (prependAt bs i b).length = bs.length :=
  setChain_length bs i _

theorem rehashChain_nil (newN : Nat) (bs : List (List Binding)) :
    rehashChain newN bs [] = bs := rfl

theorem rehashChain_cons (newN : Nat) (bs : List (List Binding)) (b : Binding)
    (c : List Binding) :
    rehashChain newN bs (b :: c) =
      rehashChain newN (prependAt bs (SymTable_hash b.key newN) b) c := rfl

theorem rehashChain_length (newN : Nat) (c : List Binding) :
    ∀ bs, (rehashChain newN bs c).length = bs.length := by
  induction c with
  | nil => intro bs; rfl
  | cons b cbs ih =>
    intro bs
    rw [rehashChain_cons, ih, prependAt_length]

theorem rehashChain_flatten_perm (newN : Nat) (h0 : 0 < newN) (c : List Binding) :
    ∀ bs, bs.length = newN →
      (rehashChain newN bs c).flatten.Perm (c ++ bs.flatten) := by
  induction c with
  | nil => intro bs _; simp [rehashChain_nil]
  | cons b cbs ih =>
    intro bs hbs
    rw [rehashChain_cons]
    have h1 := ih (prependAt bs (SymTable_hash b.key newN) b)
      (by rw [prependAt_length]; exact hbs)
    have h2 : (prependAt bs (SymTable_hash b.key newN) b).flatten.Perm
        (b :: bs.flatten) :=
      prependAt_flatten_perm bs _ b (by rw [hbs]; exact hash_lt b.key newN h0)
    have h3 := h1.trans (h2.append_left cbs)
    have h4 : (cbs ++ b :: bs.flatten).Perm (b :: (cbs ++ bs.flatten)) :=
      List.perm_middle
    exact h3.trans h4

theorem rehashChain_placed (newN : Nat) (h0 : 0 < newN) (c : List Binding) :
    ∀ bs, bs.length = newN →
      (∀ j, ∀ b' ∈ getChain bs j, SymTable_hash b'.key newN = j) →
      ∀ j, ∀ b' ∈ getChain (rehashChain newN bs c) j,
        SymTable_hash b'.key newN = j := by
  induction c with
  | nil => intro bs _ h; exact h
  | cons b cbs ih =>
    intro bs hbs h
    rw [rehashChain_cons]
    apply ih _ (by rw [prependAt_length]; exact hbs)
    intro j b' hb'
    have hib : SymTable_hash b.key newN < bs.length := by
      rw [hbs]; exact hash_lt b.key newN h0
    by_cases hj : j = SymTable_hash b.key newN
    · subst hj
      rw [prependAt, getChain_setChain_self _ _ _ hib] at hb'
      rcases List.mem_cons.mp hb' with hb'' | hb''
      · rw [hb'']
      · exact h _ _ hb''
    · rw [prependAt, getChain_setChain_ne _ _ _ _ hj] at hb'
      exact h j b' hb'

theorem foldl_rehashChain_length (newN : Nat) (old : List (List Binding)) :
    ∀ bs, (old.foldl (rehashChain newN) bs).length = bs.length := by
  induction old with
  | nil => intro bs; rfl
  | cons c rest ih =>
    intro bs
    rw [List.foldl_cons, ih, rehashChain_length]

theorem foldl_rehashChain_perm (newN : Nat) (h0 : 0 < newN)
    (old : List (List Binding)) :
    ∀ bs, bs.length = newN →
      (old.foldl (rehashChain newN) bs).flatten.Perm
        (old.flatten ++ bs.flatten) := by
  induction old with
  | nil => intro bs _; simp
  | cons c rest ih =>
    intro bs hbs
    rw [List.foldl_cons]
    have h1 := ih (rehashChain newN bs c) (by rw [rehashChain_length]; exact hbs)
    have h2 := (rehashChain_flatten_perm newN h0 c bs hbs).append_left rest.flatten
    have h3 := h1.trans h2
    have h4 : (rest.flatten ++ (c ++ bs.flatten)).Perm
        ((c ++ rest.flatten) ++ bs.flatten) := by
      have hc : (rest.flatten ++ c).Perm (c ++ rest.flatten) :=
        List.perm_append_comm
      have h5 := hc.append_right bs.flatten
      simpa [List.append_assoc] using h5
    have h6 := h3.trans h4
    simpa [List.append_assoc] using h6

theorem foldl_rehashChain_placed (newN : Nat) (h0 : 0 < newN)
    (old : List (List Binding)) :
    ∀ bs, bs.length = newN →
      (∀ j, ∀ b' ∈ getChain bs j, SymTable_hash b'.key newN = j) →
      ∀ j, ∀ b' ∈ getChain (old.foldl (rehashChain newN) bs) j,
        SymTable_hash b'.key newN = j := by
  induction old with
  | nil => intro bs _ h; exact h
  | cons c rest ih =>
    intro bs hbs h
    rw [List.foldl_cons]
    exact ih _ (by rw [rehashChain_length]; exact hbs)
      (rehashChain_placed newN h0 c bs hbs h)

theorem rehashAll_length (newN : Nat) (old : List (List Binding)) :
    (rehashAll newN old).length = newN := by
  rw [rehashAll, foldl_rehashChain_length]
  exact List.length_replicate newN []

theorem rehashAll_flatten_perm (newN : Nat) (h0 : 0 < newN)
    (old : List (List Binding)) :
    (rehashAll newN old).flatten.Perm old.flatten := by
  have h1 := foldl_rehashChain_perm newN h0 old (List.replicate newN [])
    (List.length_replicate newN [])
  rw [rehashAll]
  simpa [flatten_replicate_nil] using h1

theorem rehashAll_placed (newN : Nat) (h0 : 0 < newN)
    (old : List (List Binding)) :
    ∀ j, ∀ b ∈ getChain (rehashAll newN old) j,
      SymTable_hash b.key newN = j := by
  rw [rehashAll]
  apply foldl_rehashChain_placed newN h0 old (List.replicate newN [])
    (List.length_replicate newN [])
  intro j b' hb'
  rw [getChain_replicate_nil] at hb'
  simp at hb'

theorem prependAt_placed (bs : List (List Binding)) (n : Nat) (b : Binding)
    (hbs : bs.length = n) (h0 : 0 < n)
    (hplaced : ∀ j, ∀ b' ∈ getChain bs j, SymTable_hash b'.key n = j) :
    ∀ j, ∀ b' ∈ getChain (prependAt bs (SymTable_hash b.key n) b) j,
      SymTable_hash b'.key n = j := by
  intro j b' hb'
  have hib : SymTable_hash b.key n < bs.length := by
    rw [hbs]; exact hash_lt b.key n h0
  by_cases hj : j = SymTable_hash b.key n
  · subst hj
    rw [prependAt, getChain_setChain_self _ _ _ hib] at hb'
    rcases List.mem_cons.mp hb' with hb'' | hb''
    · rw [hb'']
    · exact hplaced _ _ hb''
  · rw [prependAt, getChain_setChain_ne _ _ _ _ hj] at hb'
    exact hplaced j b' hb'

/-- Effect of SymTable_expand on a well-formed table below the maximum
bucket count: the result is the rehash of all bindings into the next
prime's worth of buckets. -/
theorem expand_eq (t : SymTable) (hmem : t.numBuckets ∈ primeBuckCounts)
    (hlt : t.numBuckets < 65521) :
    ∃ newN, newN ∈ primeBuckCounts ∧ t.numBuckets < newN ∧
      SymTable_expand t = { buckets := rehashAll newN t.buckets,
                            length := t.length, numBuckets := newN } ∧
      ∃ i, findPrimeIdx primeBuckCounts t.numBuckets = some i ∧
        primeBuckCounts.get? (i + 1) = some newN := by
  obtain ⟨i, newN, hfind, hget, hmemN, hltN⟩ := primeBuckCounts_next _ hmem hlt
  refine ⟨newN, hmemN, hltN, ?_, i, hfind, hget⟩
  simp only [SymTable_expand, hfind, hget]

theorem expand_spec (t : SymTable) (hWF : WF t) (hlt : t.numBuckets < 65521) :
    WF (SymTable_expand t) ∧
    (SymTable_expand t).buckets.flatten.Perm t.buckets.flatten ∧
    (SymTable_expand t).length = t.length ∧
    t.numBuckets < (SymTable_expand t).numBuckets := by
  obtain ⟨newN, hmemN, hltN, hexp, -⟩ := expand_eq t hWF.1 hlt
  have h0 : 0 < newN := primeBuckCounts_pos _ hmemN
  have hperm := rehashAll_flatten_perm newN h0 t.buckets
  rw [hexp]
  refine ⟨⟨hmemN, rehashAll_length newN t.buckets, ?_, ?_, ?_⟩, hperm, rfl, hltN⟩
  · intro i _ b hb
    exact rehashAll_placed newN h0 t.buckets i b hb
  · exact ((hperm.map Binding.key).nodup_iff).mpr hWF.2.2.2.1
  · rw [hWF.2.2.2.2]
    exact hperm.length_eq.symm

theorem get_congr_perm (t t' : SymTable) (hWF : WF t) (hWF' : WF t')
    (hperm : t'.buckets.flatten.Perm t.buckets.flatten) (k : Key) :
    SymTable_get t' k = SymTable_get t k := by
  rw [get_eq_lookup_flatten t hWF k, get_eq_lookup_flatten t' hWF' k]
  exact lookupChain_perm _ _ hperm hWF'.2.2.2.1 k

theorem maybeExpand_spec (t : SymTable) (hWF : WF t) :
    WF (SymTable_maybeExpand t) ∧
    (SymTable_maybeExpand t).buckets.flatten.Perm t.buckets.flatten ∧
    (SymTable_maybeExpand t).length = t.length ∧
    ∀ k, SymTable_get (SymTable_maybeExpand t) k = SymTable_get t k := by
  unfold SymTable_maybeExpand
  by_cases h1 : t.numBuckets < t.length
  · rw [if_pos h1]
    by_cases h2 : t.numBuckets < 65521
    · rw [if_pos h2]
      obtain ⟨hWF', hperm, hlen, -⟩ := expand_spec t hWF h2
      exact ⟨hWF', hperm, hlen, fun k => get_congr_perm t _ hWF hWF' hperm k⟩
    · rw [if_neg h2]
      exact ⟨hWF, List.Perm.refl _, rfl, fun k => rfl⟩
  · rw [if_neg h1]
    exact ⟨hWF, List.Perm.refl _, rfl, fun k => rfl⟩

theorem put_dup (t : SymTable) (k : Key) (v v' : Value) (hWF : WF t)
    (hsome : SymTable_get t k = some v) :
    SymTable_put t k v' = (SymTable_maybeExpand t, 0) := by
  obtain ⟨-, -, -, hget1⟩ := maybeExpand_spec t hWF
  have hg : SymTable_get (SymTable_maybeExpand t) k = some v := by
    rw [hget1 k]; exact hsome
  have hc : containsChain
      (getChain (SymTable_maybeExpand t).buckets
        (SymTable_hash k (SymTable_maybeExpand t).numBuckets)) k = true := by
    rw [show containsChain
        (getChain (SymTable_maybeExpand t).buckets
          (SymTable_hash k (SymTable_maybeExpand t).numBuckets)) k =
        (SymTable_get (SymTable_maybeExpand t) k).isSome from rfl, hg]
    rfl
  simp [SymTable_put, hc]

theorem put_new (t : SymTable) (k : Key) (v : Value) (hWF : WF t)
    (hnone : SymTable_get t k = none) :
    (SymTable_put t k v).2 = 1 ∧
    WF (SymTable_put t k v).1 ∧
    (SymTable_put t k v).1.buckets.flatten.Perm
      ((⟨k, v⟩ : Binding) :: t.buckets.flatten) ∧
    (SymTable_put t k v).1.length = t.length + 1 ∧
    SymTable_get (SymTable_put t k v).1 k = some v ∧
    ∀ k', k' ≠ k → SymTable_get (SymTable_put t k v).1 k' = SymTable_get t k' := by
  obtain ⟨hWF1, hperm1, hlen1, hget1⟩ := maybeExpand_spec t hWF
  have hg1 : SymTable_get (SymTable_maybeExpand t) k = none := by
    rw [hget1 k]; exact hnone
  have hpos : 0 < (SymTable_maybeExpand t).numBuckets := WF_numBuckets_pos _ hWF1
  have hhlt : SymTable_hash k (SymTable_maybeExpand t).numBuckets <
      (SymTable_maybeExpand t).buckets.length := by
    rw [hWF1.2.1]; exact hash_lt _ _ hpos
  have hc : containsChain
      (getChain (SymTable_maybeExpand t).buckets
        (SymTable_hash k (SymTable_maybeExpand t).numBuckets)) k = false := by
    rw [show containsChain
        (getChain (SymTable_maybeExpand t).buckets
          (SymTable_hash k (SymTable_maybeExpand t).numBuckets)) k =
        (SymTable_get (SymTable_maybeExpand t) k).isSome from rfl, hg1]
    rfl
  have hput : SymTable_put t k v =
      ({ buckets := prependAt (SymTable_maybeExpand t).buckets
           (SymTable_hash k (SymTable_maybeExpand t).numBuckets) ⟨k, v⟩,
         length := (SymTable_maybeExpand t).length + 1,
         numBuckets := (SymTable_maybeExpand t).numBuckets }, 1) := by
    simp [SymTable_put, hc]
  have hpp : (prependAt (SymTable_maybeExpand t).buckets
      (SymTable_hash k (SymTable_maybeExpand t).numBuckets)
      (⟨k, v⟩ : Binding)).flatten.Perm
      ((⟨k, v⟩ : Binding) :: (SymTable_maybeExpand t).buckets.flatten) := by
    have := prependAt_flatten_perm (SymTable_maybeExpand t).buckets
      (SymTable_hash k (SymTable_maybeExpand t).numBuckets) ⟨k, v⟩ hhlt
    exact this
  have hflat : (SymTable_put t k v).1.buckets.flatten.Perm
      ((⟨k, v⟩ : Binding) :: t.buckets.flatten) := by
    rw [hput]
    exact hpp.trans (hperm1.cons _)
  have hknot : k ∉ (SymTable_maybeExpand t).buckets.flatten.map Binding.key := by
    intro hmem
    obtain ⟨b, hb, hbk⟩ := List.mem_map.mp hmem
    exact (get_eq_none_iff _ hWF1 k).mp hg1 b hb hbk
  have hnodup' : ((SymTable_put t k v).1.buckets.flatten.map Binding.key).Nodup := by
    refine ((hflat.map Binding.key).nodup_iff).mpr ?_
    rw [List.map_cons, List.nodup_cons]
    refine ⟨?_, hWF.2.2.2.1⟩
    intro hmem
    apply hknot
    exact ((hperm1.map Binding.key).mem_iff).mpr hmem
  have hWF' : WF (SymTable_put t k v).1 := by
    rw [hput]
    refine ⟨hWF1.1, ?_, ?_, ?_, ?_⟩
    · rw [prependAt_length]; exact hWF1.2.1
    · intro i _ b hb
      exact prependAt_placed _ _ ⟨k, v⟩ hWF1.2.1 hpos
        (WF_placed_all _ hWF1) i b hb
    · have := hnodup'
      rw [hput] at this
      exact this
    · have hl := hflat.length_eq
      rw [hput] at hl
      simp only [List.length_cons] at hl
      rw [hl, hlen1, hWF.2.2.2.2]
  refine ⟨by rw [hput], hWF', hflat, by rw [hput]; simp [hlen1], ?_, ?_⟩
  · rw [get_eq_some_iff _ hWF' k v]
    exact hflat.mem_iff.mpr (List.mem_cons_self _ _)
  · intro k' hk'
    rw [get_eq_lookup_flatten _ hWF' k',
      lookupChain_perm _ _ hflat hWF'.2.2.2.1 k',
      lookupChain_cons_ne _ _ k' (fun hh => hk' hh.symm)]
    rw [get_eq_lookup_flatten t hWF k']

theorem remove_missing (t : SymTable) (k : Key)
    (hnone : SymTable_get t k = none) : SymTable_remove t k = (t, none) := by
  have hl : lookupChain
      (getChain t.buckets (SymTable_hash k t.numBuckets)) k = none := hnone
  have hrc : (removeChain
      (getChain t.buckets (SymTable_hash k t.numBuckets)) k).2 = none := by
    rw [removeChain_snd]; exact hl
  simp [SymTable_remove, hrc]

theorem remove_found (t : SymTable) (k : Key) (v : Value) (hWF : WF t)
    (hsome : SymTable_get t k = some v) :
    (SymTable_remove t k).2 = some v ∧
    WF (SymTable_remove t k).1 ∧
    t.buckets.flatten.Perm
      ((⟨k, v⟩ : Binding) :: (SymTable_remove t k).1.buckets.flatten) ∧
    (SymTable_remove t k).1.length + 1 = t.length ∧
    SymTable_get (SymTable_remove t k).1 k = none ∧
    ∀ k', k' ≠ k → SymTable_get (SymTable_remove t k).1 k' = SymTable_get t k' := by
  have hpos : 0 < t.numBuckets := WF_numBuckets_pos t hWF
  have hhlt : SymTable_hash k t.numBuckets < t.buckets.length := by
    rw [hWF.2.1]; exact hash_lt _ _ hpos
  have hl : lookupChain
      (getChain t.buckets (SymTable_hash k t.numBuckets)) k = some v := hsome
  have hrc2 : (removeChain
      (getChain t.buckets (SymTable_hash k t.numBuckets)) k).2 = some v := by
    rw [removeChain_snd]; exact hl
  have hrem : SymTable_remove t k =
      ({ buckets := setChain t.buckets (SymTable_hash k t.numBuckets)
           (removeChain (getChain t.buckets (SymTable_hash k t.numBuckets)) k).1,
         length := t.length - 1, numBuckets := t.numBuckets }, some v) := by
    simp [SymTable_remove, hrc2]
  have hcp : (getChain t.buckets (SymTable_hash k t.numBuckets)).Perm
      ((⟨k, v⟩ : Binding) ::
        (removeChain (getChain t.buckets (SymTable_hash k t.numBuckets)) k).1) :=
    removeChain_perm _ k v hl
  obtain ⟨l1, l2, hd1, hd2⟩ := flatten_setChain t.buckets
    (SymTable_hash k t.numBuckets)
    (removeChain (getChain t.buckets (SymTable_hash k t.numBuckets)) k).1 hhlt
  have hflat : t.buckets.flatten.Perm
      ((⟨k, v⟩ : Binding) ::
        (SymTable_remove t k).1.buckets.flatten) := by
    have p1 := (hcp.append_left l1).append_right l2
    have p2 : (l1 ++ ((⟨k, v⟩ : Binding) ::
        (removeChain (getChain t.buckets (SymTable_hash k t.numBuckets)) k).1)
        ++ l2).Perm ((⟨k, v⟩ : Binding) :: (l1 ++
          (removeChain (getChain t.buckets (SymTable_hash k t.numBuckets)) k).1
          ++ l2)) := by
      have hm : (l1 ++ ((⟨k, v⟩ : Binding) ::
          ((removeChain (getChain t.buckets (SymTable_hash k t.numBuckets)) k).1
            ++ l2))).Perm ((⟨k, v⟩ : Binding) :: (l1 ++
          ((removeChain (getChain t.buckets (SymTable_hash k t.numBuckets)) k).1
            ++ l2))) := List.perm_middle
      simp only [List.append_assoc, List.cons_append]
      exact hm
    have p3 := p1.trans p2
    rw [hrem]
    simp only []
    rw [hd2, hd1]
    exact p3
  have hnodupRest : (((SymTable_remove t k).1.buckets.flatten).map
      Binding.key).Nodup ∧
      k ∉ ((SymTable_remove t k).1.buckets.flatten).map Binding.key := by
    have hmk := hflat.map Binding.key
    have hnd := (hmk.nodup_iff).mp hWF.2.2.2.1
    rw [List.map_cons, List.nodup_cons] at hnd
    exact ⟨hnd.2, hnd.1⟩
  have hlen : t.buckets.flatten.length =
      (SymTable_remove t k).1.buckets.flatten.length + 1 := by
    have h := hflat.length_eq
    rw [List.length_cons] at h
    exact h
  have hlenS : (SymTable_remove t k).1.buckets.flatten.length =
      (setChain t.buckets (SymTable_hash k t.numBuckets)
        (removeChain (getChain t.buckets
          (SymTable_hash k t.numBuckets)) k).1).flatten.length := by
    rw [hrem]
  have hWF' : WF (SymTable_remove t k).1 := by
    rw [hrem]
    refine ⟨hWF.1, ?_, ?_, ?_, ?_⟩
    · simp only []
      rw [setChain_length]; exact hWF.2.1
    · simp only []
      intro i _ b hb
      by_cases hi : i = SymTable_hash k t.numBuckets
      · subst hi
        rw [getChain_setChain_self _ _ _ hhlt] at hb
        exact WF_placed_all t hWF _ b (removeChain_sublist _ k |>.mem hb)
      · rw [getChain_setChain_ne _ _ _ _ hi] at hb
        exact WF_placed_all t hWF i b hb
    · simp only []
      have h := hnodupRest.1
      rw [hrem] at h
      simp only [] at h
      exact h
    · simp only []
      have h1 := hWF.2.2.2.2
      have h2 := hlen
      have h3 := hlenS
      rw [hrem] at h3
      simp only [] at h3
      omega
  have hlenfield : (SymTable_remove t k).1.length + 1 = t.length := by
    have h1 := hWF.2.2.2.2
    have h2 := hlen
    have h4 : (SymTable_remove t k).1.length = t.length - 1 := by
      rw [hrem]
    omega
  refine ⟨by rw [hrem], hWF', hflat, hlenfield, ?_, ?_⟩
  · rw [get_eq_none_iff _ hWF' k]
    intro b hb hbk
    exact hnodupRest.2 (List.mem_map.mpr ⟨b, hb, hbk⟩)
  · intro k' hk'
    rw [get_eq_lookup_flatten t hWF k',
      lookupChain_perm _ _ hflat hWF.2.2.2.1 k',
      lookupChain_cons_ne _ _ k' (fun hh => hk' hh.symm),
      ← get_eq_lookup_flatten _ hWF' k']

theorem replace_missing (t : SymTable) (k : Key) (v : Value)
    (hnone : SymTable_get t k = none) : SymTable_replace t k v = (t, none) := by
  have hl : lookupChain
      (getChain t.buckets (SymTable_hash k t.numBuckets)) k = none := hnone
  have hrc : (replaceChain
      (getChain t.buckets (SymTable_hash k t.numBuckets)) k v).2 = none := by
    rw [replaceChain_snd]; exact hl
  simp [SymTable_replace, hrc]

theorem replace_found (t : SymTable) (k : Key) (v v0 : Value) (hWF : WF t)
    (hsome : SymTable_get t k = some v0) :
    (SymTable_replace t k v).2 = some v0 ∧
    WF (SymTable_replace t k v).1 ∧
    (SymTable_replace t k v).1.length = t.length ∧
    (SymTable_replace t k v).1.numBuckets = t.numBuckets ∧
    SymTable_get (SymTable_replace t k v).1 k = some v ∧
    ∀ k', k' ≠ k →
      SymTable_get (SymTable_replace t k v).1 k' = SymTable_get t k' := by
  have hpos : 0 < t.numBuckets := WF_numBuckets_pos t hWF
  have hhlt : SymTable_hash k t.numBuckets < t.buckets.length := by
    rw [hWF.2.1]; exact hash_lt _ _ hpos
  have hl : lookupChain
      (getChain t.buckets (SymTable_hash k t.numBuckets)) k = some v0 := hsome
  have hrc2 : (replaceChain
      (getChain t.buckets (SymTable_hash k t.numBuckets)) k v).2 = some v0 := by
    rw [replaceChain_snd]; exact hl
  have hrep : SymTable_replace t k v =
      ({ buckets := setChain t.buckets (SymTable_hash k t.numBuckets)
                      (replaceChain (getChain t.buckets
                        (SymTable_hash k t.numBuckets)) k v).1,
         length := t.length, numBuckets := t.numBuckets }, some v0) := by
    simp [SymTable_replace, hrc2]
  obtain ⟨l1, l2, hd1, hd2⟩ := flatten_setChain t.buckets
    (SymTable_hash k t.numBuckets)
    (replaceChain (getChain t.buckets (SymTable_hash k t.numBuckets)) k v).1 hhlt
  have hkeys : (SymTable_replace t k v).1.buckets.flatten.map Binding.key =
      t.buckets.flatten.map Binding.key := by
    rw [hrep]
    simp only []
    rw [hd1, hd2]
    simp [replaceChain_map_key]
  have hWF' : WF (SymTable_replace t k v).1 := by
    rw [hrep]
    refine ⟨hWF.1, ?_, ?_, ?_, ?_⟩
    · simp only []
      rw [setChain_length]; exact hWF.2.1
    · simp only []
      intro i _ b hb
      by_cases hi : i = SymTable_hash k t.numBuckets
      · subst hi
        rw [getChain_setChain_self _ _ _ hhlt] at hb
        have hbk : b.key ∈ (replaceChain
            (getChain t.buckets (SymTable_hash k t.numBuckets)) k v).1.map
            Binding.key := List.mem_map.mpr ⟨b, hb, rfl⟩
        rw [replaceChain_map_key] at hbk
        obtain ⟨b0, hb0, hb0k⟩ := List.mem_map.mp hbk
        rw [← hb0k]
        exact WF_placed_all t hWF _ b0 hb0
      · rw [getChain_setChain_ne _ _ _ _ hi] at hb
        exact WF_placed_all t hWF i b hb
    · simp only []
      have h := hkeys
      rw [hrep] at h
      simp only [] at h
      rw [h]
      exact hWF.2.2.2.1
    · simp only []
      have hml : (SymTable_replace t k v).1.buckets.flatten.length =
          t.buckets.flatten.length := by
        have h1 := congrArg List.length hkeys
        rwa [List.length_map, List.length_map] at h1
      rw [hrep] at hml
      simp only [] at hml
      rw [hml]
      exact hWF.2.2.2.2
  refine ⟨by rw [hrep], hWF', by rw [hrep], by rw [hrep], ?_, ?_⟩
  · rw [hrep]
    show lookupChain (getChain _ (SymTable_hash k t.numBuckets)) k = some v
    rw [getChain_setChain_self _ _ _ hhlt]
    exact lookupChain_replaceChain_self _ k v v0 hl
  · intro k' hk'
    rw [hrep]
    show lookupChain (getChain _ (SymTable_hash k' t.numBuckets)) k' =
      SymTable_get t k'
    by_cases hi : SymTable_hash k' t.numBuckets = SymTable_hash k t.numBuckets
    · rw [hi, getChain_setChain_self _ _ _ hhlt,
        lookupChain_replaceChain_ne _ k k' v hk']
      show lookupChain _ k' = SymTable_get t k'
      rw [SymTable_get, hi]
    · rw [getChain_setChain_ne _ _ _ _ hi]
      rfl

end Hash

/-! ### Linked-list operation lemmas -/

namespace LL

theorem get_eq_lookup (t : SymTable) (k : Key) :
    SymTable_get t k = lookupChain t.firstBinding k := rfl

theorem llContains_eq_isSome (t : SymTable) (k : Key) :
    SymTable_contains t k = (SymTable_get t k).isSome := rfl

theorem llPut_dup (t : SymTable) (k : Key) (v v' : Value)
    (hsome : SymTable_get t k = some v) : SymTable_put t k v' = (t, 0) := by
  have hc : containsChain t.firstBinding k = true := by
    rw [show containsChain t.firstBinding k = (SymTable_get t k).isSome from rfl,
      hsome]
    rfl
  simp [SymTable_put, hc]

theorem llPut_new (t : SymTable) (k : Key) (v : Value) (hWF : WF t)
    (hnone : SymTable_get t k = none) :
    (SymTable_put t k v).2 = 1 ∧
    WF (SymTable_put t k v).1 ∧
    (SymTable_put t k v).1.firstBinding = (⟨k, v⟩ : Binding) :: t.firstBinding ∧
    (SymTable_put t k v).1.length = t.length + 1 ∧
    SymTable_get (SymTable_put t k v).1 k = some v ∧
    ∀ k', k' ≠ k → SymTable_get (SymTable_put t k v).1 k' = SymTable_get t k' := by
  have hc : containsChain t.firstBinding k = false := by
    rw [show containsChain t.firstBinding k = (SymTable_get t k).isSome from rfl,
      hnone]
    rfl
  have hput : SymTable_put t k v =
      ({ firstBinding := (⟨k, v⟩ : Binding) :: t.firstBinding,
         length := t.length + 1 }, 1) := by
    simp [SymTable_put, hc]
  have hknot : k ∉ t.firstBinding.map Binding.key := by
    intro hmem
    obtain ⟨b, hb, hbk⟩ := List.mem_map.mp hmem
    rw [get_eq_lookup, lookupChain_eq_none_iff] at hnone
    exact hnone b hb hbk
  have hWF' : WF (SymTable_put t k v).1 := by
    rw [hput]
    refine ⟨?_, ?_⟩
    · simp only []
      rw [List.map_cons, List.nodup_cons]
      exact ⟨hknot, hWF.1⟩
    · simp only []
      rw [List.length_cons, hWF.2]
  refine ⟨by rw [hput], hWF', by rw [hput], by rw [hput], ?_, ?_⟩
  · rw [hput]
    show lookupChain ((⟨k, v⟩ : Binding) :: t.firstBinding) k = some v
    simp [lookupChain]
  · intro k' hk'
    rw [hput]
    show lookupChain ((⟨k, v⟩ : Binding) :: t.firstBinding) k' = SymTable_get t k'
    rw [lookupChain_cons_ne _ _ k' (fun hh => hk' hh.symm)]
    rfl

theorem llRemove_missing (t : SymTable) (k : Key)
    (hnone : SymTable_get t k = none) : SymTable_remove t k = (t, none) := by
  have hrc : (removeChain t.firstBinding k).2 = none := by
    rw [removeChain_snd]; exact hnone
  simp [SymTable_remove, hrc]

theorem llRemove_found (t : SymTable) (k : Key) (v : Value) (hWF : WF t)
    (hsome : SymTable_get t k = some v) :
    (SymTable_remove t k).2 = some v ∧
    WF (SymTable_remove t k).1 ∧
    t.firstBinding.Perm
      ((⟨k, v⟩ : Binding) :: (SymTable_remove t k).1.firstBinding) ∧
    (SymTable_remove t k).1.length + 1 = t.length ∧
    SymTable_get (SymTable_remove t k).1 k = none ∧
    ∀ k', k' ≠ k → SymTable_get (SymTable_remove t k).1 k' = SymTable_get t k' := by
  have hl : lookupChain t.firstBinding k = some v := hsome
  have hrc2 : (removeChain t.firstBinding k).2 = some v := by
    rw [removeChain_snd]; exact hl
  have hrem : SymTable_remove t k =
      ({ firstBinding := (removeChain t.firstBinding k).1,
         length := t.length - 1 }, some v) := by
    simp [SymTable_remove, hrc2]
  have hcp := removeChain_perm t.firstBinding k v hl
  have hflat : t.firstBinding.Perm
      ((⟨k, v⟩ : Binding) :: (SymTable_remove t k).1.firstBinding) := by
    rw [hrem]
    exact hcp
  have hnd := ((hcp.map Binding.key).nodup_iff).mp hWF.1
  rw [List.map_cons, List.nodup_cons] at hnd
  have hlen0 : t.firstBinding.length = (removeChain t.firstBinding k).1.length + 1 := by
    have h := hcp.length_eq
    rw [List.length_cons] at h
    exact h
  have hWF' : WF (SymTable_remove t k).1 := by
    rw [hrem]
    refine ⟨?_, ?_⟩
    · simp only []
      exact hnd.2
    · simp only []
      have h1 := hWF.2
      omega
  refine ⟨by rw [hrem], hWF', hflat, ?_, ?_, ?_⟩
  · have h1 := hWF.2
    have h2 : (SymTable_remove t k).1.length = t.length - 1 := by rw [hrem]
    omega
  · rw [hrem]
    show lookupChain (removeChain t.firstBinding k).1 k = none
    exact lookupChain_removeChain_self t.firstBinding k hWF.1
  · intro k' hk'
    rw [hrem]
    show lookupChain (removeChain t.firstBinding k).1 k' = SymTable_get t k'
    exact lookupChain_removeChain_ne t.firstBinding k k' hk'

theorem llReplace_missing (t : SymTable) (k : Key) (v : Value)
    (hnone : SymTable_get t k = none) : SymTable_replace t k v = (t, none) := by
  have hrc : (replaceChain t.firstBinding k v).2 = none := by
    rw [replaceChain_snd]; exact hnone
  simp [SymTable_replace, hrc]

theorem llReplace_found (t : SymTable) (k : Key) (v v0 : Value) (hWF : WF t)
    (hsome : SymTable_get t k = some v0) :
    (SymTable_replace t k v).2 = some v0 ∧
    WF (SymTable_replace t k v).1 ∧
    (SymTable_replace t k v).1.length = t.length ∧
    SymTable_get (SymTable_replace t k v).1 k = some v ∧
    ∀ k', k' ≠ k →
      SymTable_get (SymTable_replace t k v).1 k' = SymTable_get t k' := by
  have hl : lookupChain t.firstBinding k = some v0 := hsome
  have hrc2 : (replaceChain t.firstBinding k v).2 = some v0 := by
    rw [replaceChain_snd]; exact hl
  have hrep : SymTable_replace t k v =
      ({ firstBinding := (replaceChain t.firstBinding k v).1,
         length := t.length }, some v0) := by
    simp [SymTable_replace, hrc2]
  have hWF' : WF (SymTable_replace t k v).1 := by
    rw [hrep]
    refine ⟨?_, ?_⟩
    · simp only []
      rw [replaceChain_map_key]
      exact hWF.1
    · simp only []
      rw [replaceChain_length]
      exact hWF.2
  refine ⟨by rw [hrep], hWF', by rw [hrep], ?_, ?_⟩
  · rw [hrep]
    show lookupChain (replaceChain t.firstBinding k v).1 k = some v
    exact lookupChain_replaceChain_self _ k v v0 hl
  · intro k' hk'
    rw [hrep]
    show lookupChain (replaceChain t.firstBinding k v).1 k' = SymTable_get t k'
    exact lookupChain_replaceChain_ne _ k k' v hk'

end LL

/-! ### Traversal traces -/

theorem foldl_snoc_eq (l : List Binding) :
    ∀ acc : List (Key × Value),
      l.foldl (fun a b => a ++ [(b.key, b.value)]) acc =
        acc ++ l.map (fun b => (b.key, b.value)) := by
  induction l with
  | nil => intro acc; simp
  | cons b bs ih =>
    intro acc
    rw [List.foldl_cons, ih]
    simp

theorem foldl_buckets_eq (bs : List (List Binding)) :
    ∀ acc : List (Key × Value),
      bs.foldl (fun acc2 c => c.foldl (fun a b => a ++ [(b.key, b.value)]) acc2)
          acc =
        acc ++ bs.flatten.map (fun b => (b.key, b.value)) := by
  induction bs with
  | nil => intro acc; simp
  | cons c cs ih =>
    intro acc
    rw [List.foldl_cons, foldl_snoc_eq, ih]
    simp

theorem hash_map_trace (t : Hash.SymTable) :
    Hash.SymTable_map t = t.buckets.flatten.map (fun b => (b.key, b.value)) := by
  have h := foldl_buckets_eq t.buckets []
  simpa [Hash.SymTable_map] using h

theorem ll_map_trace (t : LL.SymTable) :
    LL.SymTable_map t = t.firstBinding.map (fun b => (b.key, b.value)) := by
  have h := foldl_snoc_eq t.firstBinding []
  simpa [LL.SymTable_map] using h

/-- Two duplicate-free association chains with the same lookup function
are permutations of one another. -/
theorem chain_perm_of_lookup_eq :
    ∀ c1 c2 : List Binding, (c1.map Binding.key).Nodup →
      (c2.map Binding.key).Nodup →
      (∀ k, lookupChain c1 k = lookupChain c2 k) → c1.Perm c2 := by
  intro c1
  induction c1 with
  | nil =>
    intro c2 _ hnd2 hl
    cases c2 with
    | nil => exact List.Perm.refl []
    | cons b bs =>
      exfalso
      have h := (hl b.key).symm
      rw [show lookupChain ([] : List Binding) b.key = none from rfl,
        lookupChain_eq_none_iff] at h
      exact h b (List.mem_cons_self b bs) rfl
  | cons b rest ih =>
    intro c2 hnd1 hnd2 hl
    have hb2 : b ∈ c2 := by
      have h := hl b.key
      rw [show lookupChain (b :: rest) b.key = some b.value from by
        simp [lookupChain]] at h
      have hmem := (lookupChain_eq_some_iff c2 b.key b.value hnd2).mp h.symm
      have hbeq : (⟨b.key, b.value⟩ : Binding) = b := by cases b; rfl
      rwa [hbeq] at hmem
    have hperm2 : c2.Perm (b :: c2.erase b) := List.perm_cons_erase hb2
    have hnd2' : ((b :: c2.erase b).map Binding.key).Nodup :=
      ((hperm2.map Binding.key).nodup_iff).mp hnd2
    rw [List.map_cons, List.nodup_cons] at hnd2'
    rw [List.map_cons, List.nodup_cons] at hnd1
    have hlrest : ∀ k, lookupChain rest k = lookupChain (c2.erase b) k := by
      intro k
      by_cases hk : k = b.key
      · subst hk
        have h1 : lookupChain rest b.key = none := by
          rw [lookupChain_eq_none_iff]
          intro b' hb' hbk'
          exact hnd1.1 (List.mem_map.mpr ⟨b', hb', hbk'⟩)
        have h2 : lookupChain (c2.erase b) b.key = none := by
          rw [lookupChain_eq_none_iff]
          intro b' hb' hbk'
          exact hnd2'.1 (List.mem_map.mpr ⟨b', hb', hbk'⟩)
        rw [h1, h2]
      · have h1 : lookupChain (b :: rest) k = lookupChain rest k :=
          lookupChain_cons_ne b rest k (fun hh => hk hh.symm)
        have h2 := lookupChain_perm c2 (b :: c2.erase b) hperm2 hnd2 k
        have h3 : lookupChain (b :: c2.erase b) k = lookupChain (c2.erase b) k :=
          lookupChain_cons_ne b _ k (fun hh => hk hh.symm)
        rw [← h1, hl k, h2, h3]
    have hrec := ih (c2.erase b) hnd1.2 hnd2'.2 hlrest
    exact (hrec.cons b).trans hperm2.symm

/-! ### Simulation between the two implementations -/

theorem WF_new : Hash.WF Hash.SymTable_new := by
  have hb : Hash.SymTable_new.buckets = List.replicate 509 [] := rfl
  refine ⟨by decide, ?_, ?_, ?_, ?_⟩
  · rw [hb, List.length_replicate]
    rfl
  · intro i _ b hbm
    rw [hb, getChain_replicate_nil] at hbm
    simp at hbm
  · rw [hb, flatten_replicate_nil]
    simp
  · rw [hb, flatten_replicate_nil]
    rfl

theorem LL_WF_new : LL.WF LL.SymTable_new :=
  ⟨List.nodup_nil, rfl⟩

theorem Inv_new : Inv Hash.SymTable_new LL.SymTable_new := by
  refine ⟨WF_new, LL_WF_new, rfl, ?_⟩
  intro k
  show lookupChain (getChain (List.replicate 509 []) (SymTable_hash k 509)) k =
    lookupChain [] k
  rw [getChain_replicate_nil]

theorem step_sim (t : Hash.SymTable) (lt : LL.SymTable) (op : Op) (h : Inv t lt) :
    Inv (hashStep t op).1 (listStep lt op).1 ∧
      outEquiv (hashStep t op).2 (listStep lt op).2 := by
  obtain ⟨hWF, hlWF, hlen, hget⟩ := h
  cases op with
  | put k v =>
    cases hg : Hash.SymTable_get t k with
    | some v0 =>
      have hlg : LL.SymTable_get lt k = some v0 := by rw [← hget k]; exact hg
      have h1 := Hash.put_dup t k v0 v hWF hg
      have h2 := LL.llPut_dup lt k v0 v hlg
      obtain ⟨hWF1, -, hlen1, hget1⟩ := Hash.maybeExpand_spec t hWF
      have hs : hashStep t (.put k v) = (Hash.SymTable_maybeExpand t, .res 0) := by
        simp [hashStep, h1]
      have hl2 : listStep lt (.put k v) = (lt, .res 0) := by
        simp [listStep, h2]
      rw [hs, hl2]
      exact ⟨⟨hWF1, hlWF, by rw [hlen1]; exact hlen,
        fun k' => by rw [hget1 k']; exact hget k'⟩, rfl⟩
    | none =>
      have hlg : LL.SymTable_get lt k = none := by rw [← hget k]; exact hg
      obtain ⟨hr2, hWF', -, hlen', hgk, hgne⟩ := Hash.put_new t k v hWF hg
      obtain ⟨lr2, lWF', -, llen', lgk, lgne⟩ := LL.llPut_new lt k v hlWF hlg
      have hs : hashStep t (.put k v) = ((Hash.SymTable_put t k v).1, .res 1) := by
        simp [hashStep, hr2]
      have hl2 : listStep lt (.put k v) = ((LL.SymTable_put lt k v).1, .res 1) := by
        simp [listStep, lr2]
      rw [hs, hl2]
      refine ⟨⟨hWF', lWF', by rw [hlen', llen', hlen], ?_⟩, rfl⟩
      intro k'
      by_cases hk : k' = k
      · subst hk; rw [hgk, lgk]
      · rw [hgne k' hk, lgne k' hk, hget k']
  | get k =>
    refine ⟨⟨hWF, hlWF, hlen, hget⟩, ?_⟩
    show Out.val (Hash.SymTable_get t k) = Out.val (LL.SymTable_get lt k)
    rw [hget k]
  | contains k =>
    refine ⟨⟨hWF, hlWF, hlen, hget⟩, ?_⟩
    show Out.bool (Hash.SymTable_contains t k) = Out.bool (LL.SymTable_contains lt k)
    rw [Hash.contains_eq_isSome, LL.llContains_eq_isSome, hget k]
  | replace k v =>
    cases hg : Hash.SymTable_get t k with
    | none =>
      have hlg : LL.SymTable_get lt k = none := by rw [← hget k]; exact hg
      have h1 := Hash.replace_missing t k v hg
      have h2 := LL.llReplace_missing lt k v hlg
      have hs : hashStep t (.replace k v) = (t, .val none) := by
        simp [hashStep, h1]
      have hl2 : listStep lt (.replace k v) = (lt, .val none) := by
        simp [listStep, h2]
      rw [hs, hl2]
      exact ⟨⟨hWF, hlWF, hlen, hget⟩, rfl⟩
    | some v0 =>
      have hlg : LL.SymTable_get lt k = some v0 := by rw [← hget k]; exact hg
      obtain ⟨hr2, hWF', hlen', -, hgk, hgne⟩ := Hash.replace_found t k v v0 hWF hg
      obtain ⟨lr2, lWF', llen', lgk, lgne⟩ := LL.llReplace_found lt k v v0 hlWF hlg
      have hs : hashStep t (.replace k v) =
          ((Hash.SymTable_replace t k v).1, .val (some v0)) := by
        simp [hashStep, hr2]
      have hl2 : listStep lt (.replace k v) =
          ((LL.SymTable_replace lt k v).1, .val (some v0)) := by
        simp [listStep, lr2]
      rw [hs, hl2]
      refine ⟨⟨hWF', lWF', by rw [hlen', llen', hlen], ?_⟩, rfl⟩
      intro k'
      by_cases hk : k' = k
      · subst hk; rw [hgk, lgk]
      · rw [hgne k' hk, lgne k' hk, hget k']
  | remove k =>
    cases hg : Hash.SymTable_get t k with
    | none =>
      have hlg : LL.SymTable_get lt k = none := by rw [← hget k]; exact hg
      have h1 := Hash.remove_missing t k hg
      have h2 := LL.llRemove_missing lt k hlg
      have hs : hashStep t (.remove k) = (t, .val none) := by
        simp [hashStep, h1]
      have hl2 : listStep lt (.remove k) = (lt, .val none) := by
        simp [listStep, h2]
      rw [hs, hl2]
      exact ⟨⟨hWF, hlWF, hlen, hget⟩, rfl⟩
    | some v0 =>
      have hlg : LL.SymTable_get lt k = some v0 := by rw [← hget k]; exact hg
      obtain ⟨hr2, hWF', -, hlen', hgk, hgne⟩ := Hash.remove_found t k v0 hWF hg
      obtain ⟨lr2, lWF', -, llen', lgk, lgne⟩ := LL.llRemove_found lt k v0 hlWF hlg
      have hs : hashStep t (.remove k) =
          ((Hash.SymTable_remove t k).1, .val (some v0)) := by
        simp [hashStep, hr2]
      have hl2 : listStep lt (.remove k) =
          ((LL.SymTable_remove lt k).1, .val (some v0)) := by
        simp [listStep, lr2]
      rw [hs, hl2]
      refine ⟨⟨hWF', lWF', ?_, ?_⟩, rfl⟩
      · show (Hash.SymTable_remove t k).1.length = (LL.SymTable_remove lt k).1.length
        omega
      · intro k'
        by_cases hk : k' = k
        · subst hk; rw [hgk, lgk]
        · rw [hgne k' hk, lgne k' hk, hget k']
  | size =>
    refine ⟨⟨hWF, hlWF, hlen, hget⟩, ?_⟩
    show Out.count t.length = Out.count lt.length
    rw [hlen]
  | traverse =>
    refine ⟨⟨hWF, hlWF, hlen, hget⟩, ?_⟩
    show (Hash.SymTable_map t).Perm (LL.SymTable_map lt)
    rw [hash_map_trace, ll_map_trace]
    have hperm : t.buckets.flatten.Perm lt.firstBinding := by
      apply chain_perm_of_lookup_eq _ _ hWF.2.2.2.1 hlWF.1
      intro k
      rw [← Hash.get_eq_lookup_flatten t hWF k, ← LL.get_eq_lookup lt k]
      exact hget k
    exact hperm.map _

theorem run_sim (ops : List Op) :
    ∀ (t : Hash.SymTable) (lt : LL.SymTable), Inv t lt →
      List.Forall₂ outEquiv (hashRun t ops) (listRun lt ops) := by
  induction ops with
  | nil => intro t lt _; exact List.Forall₂.nil
  | cons op rest ih =>
    intro t lt h
    obtain ⟨hinv, hout⟩ := step_sim t lt op h
    exact List.Forall₂.cons hout (ih _ _ hinv)

/-! ### Reachability invariants of the hash table -/

theorem hashStep_WF (t : Hash.SymTable) (op : Op) (hWF : Hash.WF t) :
    Hash.WF (hashStep t op).1 := by
  cases op with
  | put k v =>
    cases hg : Hash.SymTable_get t k with
    | some v0 =>
      have h1 := Hash.put_dup t k v0 v hWF hg
      simp only [hashStep, h1]
      exact (Hash.maybeExpand_spec t hWF).1
    | none =>
      obtain ⟨-, hWF', -, -, -, -⟩ := Hash.put_new t k v hWF hg
      exact hWF'
  | get k => exact hWF
  | contains k => exact hWF
  | replace k v =>
    cases hg : Hash.SymTable_get t k with
    | none =>
      have h1 := Hash.replace_missing t k v hg
      simp only [hashStep, h1]
      exact hWF
    | some v0 =>
      obtain ⟨-, hWF', -, -, -, -⟩ := Hash.replace_found t k v v0 hWF hg
      exact hWF'
  | remove k =>
    cases hg : Hash.SymTable_get t k with
    | none =>
      have h1 := Hash.remove_missing t k hg
      simp only [hashStep, h1]
      exact hWF
    | some v0 =>
      obtain ⟨-, hWF', -, -, -, -⟩ := Hash.remove_found t k v0 hWF hg
      exact hWF'
  | size => exact hWF
  | traverse => exact hWF

theorem hashExec_WF (ops : List Op) :
    ∀ t : Hash.SymTable, Hash.WF t → Hash.WF (hashExec t ops) := by
  induction ops with
  | nil => intro t h; exact h
  | cons op rest ih =>
    intro t h
    exact ih _ (hashStep_WF t op h)

theorem reachable_WF (t : Hash.SymTable) (h : Reachable t) : Hash.WF t := by
  obtain ⟨ops, hops⟩ := h
  rw [← hops]
  exact hashExec_WF ops _ WF_new

/-- The index the expansion loop finds for any member of the prime
sequence is within the array; below the maximum, the successor index is
also within the array. -/
theorem findPrimeIdx_bounds (n : Nat) (hmem : n ∈ primeBuckCounts) :
    ∃ i, findPrimeIdx primeBuckCounts n = some i ∧ i < primeBuckCounts.length ∧
      (n < 65521 → i + 1 < primeBuckCounts.length) := by
  rw [primeBuckCounts] at hmem
  simp only [List.mem_cons, List.not_mem_nil, or_false] at hmem
  rcases hmem with h | h | h | h | h | h | h | h
  · exact ⟨0, by rw [h]; rfl, by decide, fun _ => by decide⟩
  · exact ⟨1, by rw [h]; rfl, by decide, fun _ => by decide⟩
  · exact ⟨2, by rw [h]; rfl, by decide, fun _ => by decide⟩
  · exact ⟨3, by rw [h]; rfl, by decide, fun _ => by decide⟩
  · exact ⟨4, by rw [h]; rfl, by decide, fun _ => by decide⟩
  · exact ⟨5, by rw [h]; rfl, by decide, fun _ => by decide⟩
  · exact ⟨6, by rw [h]; rfl, by decide, fun _ => by decide⟩
  · refine ⟨7, by rw [h]; rfl, by decide, fun hlt => ?_⟩
    rw [h] at hlt
    exact absurd hlt (by decide)

/-! ### Stepwise wrap-around of the hash accumulator -/

theorem foldl_hash_mod (l : List Nat) :
    ∀ a : Nat,
      l.foldl (fun uHash c => (uHash * 65599 + c) % SIZE_T_MOD) (a % SIZE_T_MOD) =
        l.foldl (fun uHash c => uHash * 65599 + c) a % SIZE_T_MOD := by
  induction l with
  | nil => intro a; rfl
  | cons c cs ih =>
    intro a
    rw [List.foldl_cons, List.foldl_cons]
    have h1 : (a % SIZE_T_MOD * 65599 + c) % SIZE_T_MOD =
        (a * 65599 + c) % SIZE_T_MOD := by
      simp only [SIZE_T_MOD]
      omega
    rw [h1]
    exact ih (a * 65599 + c)

/-! ## Claim theorems -/

/-- C1: whenever an insert triggers a bucket-count expansion on a
well-formed table (possible exactly below the maximum bucket count, so
at every boundary 509 to 1021 to ... to 65521 of the prime sequence),
the expansion rehashes every binding present before it into the new
well-formed bucket array (same bindings up to permutation), `get` of
every key afterwards returns exactly what it returned before — in
particular the original value of every previously inserted key — the
binding count is unchanged, and the bucket count strictly grows;
moreover the insert path's growth step performs exactly this expansion
when the trigger condition holds. -/
theorem C1_growth_transparent (t : Hash.SymTable) (hWF : Hash.WF t)
    (hmax : t.numBuckets < 65521) :
    Hash.WF (Hash.SymTable_expand t) ∧
    (Hash.SymTable_expand t).buckets.flatten.Perm t.buckets.flatten ∧
    (∀ k, Hash.SymTable_get (Hash.SymTable_expand t) k =
      Hash.SymTable_get t k) ∧
    (Hash.SymTable_expand t).length = t.length ∧
    t.numBuckets < (Hash.SymTable_expand t).numBuckets ∧
    (t.numBuckets < t.length →
      Hash.SymTable_maybeExpand t = Hash.SymTable_expand t) := by
  obtain ⟨hWF', hperm, hlen, hinc⟩ := Hash.expand_spec t hWF hmax
  refine ⟨hWF', hperm, fun k => Hash.get_congr_perm t _ hWF hWF' hperm k,
    hlen, hinc, ?_⟩
  intro htrig
  unfold Hash.SymTable_maybeExpand
  rw [if_pos htrig, if_pos hmax]

/-- C1 witness: the hypotheses hold at a fresh table, where the theorem
gives lookup preservation and count preservation across the
509-to-1021 boundary. -/
theorem C1_growth_transparent_witness :
    (Hash.WF Hash.SymTable_new ∧ Hash.SymTable_new.numBuckets < 65521) ∧
    (∀ k, Hash.SymTable_get (Hash.SymTable_expand Hash.SymTable_new) k =
      Hash.SymTable_get Hash.SymTable_new k) ∧
    (Hash.SymTable_expand Hash.SymTable_new).length =
      Hash.SymTable_new.length :=
  ⟨⟨WF_new, by decide⟩,
    (C1_growth_transparent Hash.SymTable_new WF_new (by decide)).2.2.1,
    (C1_growth_transparent Hash.SymTable_new WF_new (by decide)).2.2.2.1⟩

/-- C2: put of an already-bound key (with any value) returns the
rejected result 0 in both implementations; the binding count, the key's
existing value, and every other binding's value are unchanged (for the
hash table the whole key-to-value mapping is unchanged even when the
rejected put first triggered an expansion; the linked-list table is
literally unchanged). -/
theorem C2_put_duplicate_rejected (t : Hash.SymTable) (lt : LL.SymTable)
    (k : Key) (v v' : Value)
    (hWF : Hash.WF t) (hbound : Hash.SymTable_get t k = some v)
    (hlbound : LL.SymTable_get lt k = some v) :
    (Hash.SymTable_put t k v').2 = 0 ∧
    (Hash.SymTable_put t k v').1.length = t.length ∧
    Hash.SymTable_get (Hash.SymTable_put t k v').1 k = some v ∧
    (∀ k2, Hash.SymTable_get (Hash.SymTable_put t k v').1 k2 =
      Hash.SymTable_get t k2) ∧
    LL.SymTable_put lt k v' = (lt, 0) := by
  have h1 := Hash.put_dup t k v v' hWF hbound
  obtain ⟨-, -, hlen1, hget1⟩ := Hash.maybeExpand_spec t hWF
  refine ⟨?_, ?_, ?_, ?_, LL.llPut_dup lt k v v' hlbound⟩
  · rw [h1]
  · rw [h1]
    show (Hash.SymTable_maybeExpand t).length = t.length
    exact hlen1
  · rw [h1]
    show Hash.SymTable_get (Hash.SymTable_maybeExpand t) k = some v
    rw [hget1 k]
    exact hbound
  · intro k2
    rw [h1]
    show Hash.SymTable_get (Hash.SymTable_maybeExpand t) k2 = Hash.SymTable_get t k2
    exact hget1 k2

set_option maxRecDepth 10000 in
/-- C2 witness: a table holding key [97] with value 5 rejects a second
put of [97]. -/
theorem C2_put_duplicate_rejected_witness :
    (Hash.WF (Hash.SymTable_put Hash.SymTable_new [97] 5).1 ∧
      Hash.SymTable_get (Hash.SymTable_put Hash.SymTable_new [97] 5).1 [97] =
        some 5 ∧
      LL.SymTable_get (LL.SymTable_put LL.SymTable_new [97] 5).1 [97] =
        some 5) ∧
    (Hash.SymTable_put (Hash.SymTable_put Hash.SymTable_new [97] 5).1 [97] 9).2
      = 0 ∧
    LL.SymTable_put (LL.SymTable_put LL.SymTable_new [97] 5).1 [97] 9 =
      ((LL.SymTable_put LL.SymTable_new [97] 5).1, 0) :=
  ⟨⟨hashStep_WF Hash.SymTable_new (.put [97] 5) WF_new, by decide, by decide⟩,
    (C2_put_duplicate_rejected (Hash.SymTable_put Hash.SymTable_new [97] 5).1
      (LL.SymTable_put LL.SymTable_new [97] 5).1 [97] 5 9
      (hashStep_WF Hash.SymTable_new (.put [97] 5) WF_new)
      (by decide) (by decide)).1,
    (C2_put_duplicate_rejected (Hash.SymTable_put Hash.SymTable_new [97] 5).1
      (LL.SymTable_put LL.SymTable_new [97] 5).1 [97] 5 9
      (hashStep_WF Hash.SymTable_new (.put [97] 5) WF_new)
      (by decide) (by decide)).2.2.2.2⟩

/-- C3: growth at the start of put is triggered exactly when the binding
count strictly exceeds the bucket count (so it lags one insertion behind
the threshold crossing) and the bucket count is below 65521, and then the
bucket count advances to the next entry of the prime sequence; when the
count does not exceed the bucket count, or the bucket count is already
65521, the growth step leaves the table untouched; the insertion after
the growth step never changes the bucket count again. -/
theorem C3_growth_trigger (t : Hash.SymTable)
    (hmem : t.numBuckets ∈ primeBuckCounts) :
    (t.numBuckets < t.length → t.numBuckets < 65521 →
      ∃ i, findPrimeIdx primeBuckCounts t.numBuckets = some i ∧
        primeBuckCounts.get? (i + 1) =
          some (Hash.SymTable_maybeExpand t).numBuckets ∧
        t.numBuckets < (Hash.SymTable_maybeExpand t).numBuckets) ∧
    (t.length ≤ t.numBuckets → Hash.SymTable_maybeExpand t = t) ∧
    (t.numBuckets = 65521 → Hash.SymTable_maybeExpand t = t) ∧
    ∀ k v, (Hash.SymTable_put t k v).1.numBuckets =
      (Hash.SymTable_maybeExpand t).numBuckets := by
  refine ⟨?_, ?_, ?_, ?_⟩
  · intro htrig hmax
    obtain ⟨newN, hmemN, hltN, hexp, i, hfind, hget⟩ := Hash.expand_eq t hmem hmax
    have hme : Hash.SymTable_maybeExpand t = Hash.SymTable_expand t := by
      unfold Hash.SymTable_maybeExpand
      rw [if_pos htrig, if_pos hmax]
    refine ⟨i, hfind, ?_, ?_⟩
    · rw [hme, hexp]
      exact hget
    · rw [hme, hexp]
      exact hltN
  · intro hle
    unfold Hash.SymTable_maybeExpand
    rw [if_neg (Nat.not_lt.mpr hle)]
  · intro h65
    unfold Hash.SymTable_maybeExpand
    by_cases h1 : t.numBuckets < t.length
    · rw [if_pos h1, if_neg (by rw [h65]; omega)]
    · rw [if_neg h1]
  · intro k v
    by_cases hc : containsChain
        (getChain (Hash.SymTable_maybeExpand t).buckets
          (SymTable_hash k (Hash.SymTable_maybeExpand t).numBuckets)) k
    · simp [Hash.SymTable_put, hc]
    · simp [Hash.SymTable_put, hc]

/-- C3 witness: the fresh table's bucket count 509 is in the sequence;
at size 0 no growth happens. -/
theorem C3_growth_trigger_witness :
    Hash.SymTable_new.numBuckets ∈ primeBuckCounts ∧
    (Hash.SymTable_new.length ≤ Hash.SymTable_new.numBuckets →
      Hash.SymTable_maybeExpand Hash.SymTable_new = Hash.SymTable_new) :=
  ⟨by decide, (C3_growth_trigger Hash.SymTable_new (by decide)).2.1⟩

/-- C4 (code bug in SymTable_free): symtable.h line 20 documents
"if NULL, does nothing", and the claim repeats it, but both
implementations execute `assert(oSymTable != NULL)` (symtablehash.c line
98, symtablelist.c line 57), so a null argument aborts (modelled `none`)
instead of returning normally (`some ()`). -/
theorem C4_free_null_asserts :
    Hash.SymTable_free_c none = none ∧ LL.SymTable_free_c none = none ∧
    Hash.SymTable_free_c none ≠ some () ∧ LL.SymTable_free_c none ≠ some () :=
  ⟨rfl, rfl, by decide, by decide⟩

/-- C5: removing a bound key in either implementation returns exactly
the stored value, decrements the binding count by exactly one, makes a
subsequent contains on that key false, and leaves every other key's
binding intact (the unlink is correct whether the binding is the head of
its chain or interior). -/
theorem C5_remove_found (t : Hash.SymTable) (lt : LL.SymTable) (k : Key)
    (v w : Value) (hWF : Hash.WF t) (hbound : Hash.SymTable_get t k = some v)
    (hlWF : LL.WF lt) (hlbound : LL.SymTable_get lt k = some w) :
    (Hash.SymTable_remove t k).2 = some v ∧
    (Hash.SymTable_remove t k).1.length + 1 = t.length ∧
    Hash.SymTable_contains (Hash.SymTable_remove t k).1 k = false ∧
    (∀ k', k' ≠ k → Hash.SymTable_get (Hash.SymTable_remove t k).1 k' =
      Hash.SymTable_get t k') ∧
    (LL.SymTable_remove lt k).2 = some w ∧
    (LL.SymTable_remove lt k).1.length + 1 = lt.length ∧
    LL.SymTable_contains (LL.SymTable_remove lt k).1 k = false ∧
    ∀ k', k' ≠ k → LL.SymTable_get (LL.SymTable_remove lt k).1 k' =
      LL.SymTable_get lt k' := by
  obtain ⟨h1, hWF', -, h2, h3, h4⟩ := Hash.remove_found t k v hWF hbound
  obtain ⟨l1, lWF', -, l2, l3, l4⟩ := LL.llRemove_found lt k w hlWF hlbound
  refine ⟨h1, h2, ?_, h4, l1, l2, ?_, l4⟩
  · rw [Hash.contains_eq_isSome, h3]
    rfl
  · rw [LL.llContains_eq_isSome, l3]
    rfl

set_option maxRecDepth 10000 in
/-- C5 witness: removing key [97] bound to 5 from a one-binding table in
each implementation. -/
theorem C5_remove_found_witness :
    (Hash.WF (Hash.SymTable_put Hash.SymTable_new [97] 5).1 ∧
      Hash.SymTable_get (Hash.SymTable_put Hash.SymTable_new [97] 5).1 [97] =
        some 5 ∧
      LL.WF (LL.SymTable_put LL.SymTable_new [97] 5).1 ∧
      LL.SymTable_get (LL.SymTable_put LL.SymTable_new [97] 5).1 [97] =
        some 5) ∧
    (Hash.SymTable_remove (Hash.SymTable_put Hash.SymTable_new [97] 5).1
      [97]).2 = some 5 ∧
    (LL.SymTable_remove (LL.SymTable_put LL.SymTable_new [97] 5).1 [97]).2 =
      some 5 :=
  ⟨⟨hashStep_WF Hash.SymTable_new (.put [97] 5) WF_new, by decide,
    ⟨by decide, by decide⟩, by decide⟩,
    (C5_remove_found (Hash.SymTable_put Hash.SymTable_new [97] 5).1
      (LL.SymTable_put LL.SymTable_new [97] 5).1 [97] 5 5
      (hashStep_WF Hash.SymTable_new (.put [97] 5) WF_new) (by decide)
      ⟨by decide, by decide⟩ (by decide)).1,
    (C5_remove_found (Hash.SymTable_put Hash.SymTable_new [97] 5).1
      (LL.SymTable_put LL.SymTable_new [97] 5).1 [97] 5 5
      (hashStep_WF Hash.SymTable_new (.put [97] 5) WF_new) (by decide)
      ⟨by decide, by decide⟩ (by decide)).2.2.2.2.1⟩

/-- C7: for every key and positive bucket count, the hash is the
polynomial rolling hash (Horner evaluation with multiplier 65599,
left-to-right over the key's byte values) wrapped modulo the `size_t`
width 2^64, reduced modulo the bucket count, and the result is below the
bucket count. -/
theorem C7_hash (pcKey : Key) (uBucketCount : Nat) (h : 0 < uBucketCount) :
    SymTable_hash pcKey uBucketCount =
      polyAccum pcKey % SIZE_T_MOD % uBucketCount ∧
    SymTable_hash pcKey uBucketCount < uBucketCount := by
  have h0 : SymTable_hash pcKey uBucketCount =
      pcKey.foldl (fun uHash c => (uHash * 65599 + c) % SIZE_T_MOD) 0 %
        uBucketCount := rfl
  have h1 : pcKey.foldl (fun uHash c => (uHash * 65599 + c) % SIZE_T_MOD) 0 =
      polyAccum pcKey % SIZE_T_MOD := by
    have h2 := foldl_hash_mod pcKey 0
    rw [Nat.zero_mod] at h2
    exact h2
  exact ⟨by rw [h0, h1], by rw [h0]; exact Nat.mod_lt _ h⟩

/-- C7 witness: the hash of the byte string "hi" with 509 buckets. -/
theorem C7_hash_witness :
    0 < 509 ∧
    SymTable_hash [104, 105] 509 = polyAccum [104, 105] % SIZE_T_MOD % 509 ∧
    SymTable_hash [104, 105] 509 < 509 :=
  ⟨by decide, (C7_hash [104, 105] 509 (by decide)).1,
    (C7_hash [104, 105] 509 (by decide)).2⟩

set_option maxRecDepth 10000 in
/-- C8 counterexample: the two implementations are not fully
behaviorally equivalent as claimed, because the sequences of (key,
value) arguments map passes to its callback differ: after putting keys
[97] then [98] from fresh tables, the hash table's map visits [97] first
(bucket order 97 before 98) while the linked list's map visits [98]
first (most recently inserted first), so the third output of the two
runs differs. -/
theorem C8_map_order_cex :
    hashRun Hash.SymTable_new [Op.put [97] 1, Op.put [98] 2, Op.traverse] ≠
      listRun LL.SymTable_new [Op.put [97] 1, Op.put [98] 2, Op.traverse] := by
  decide

/-- C8 (amended): for every sequence of operations applied to both
implementations from fresh tables, every put, get, contains, replace,
remove and getLength call returns the same result in both, and the two
map traversals pass the callback the same multiset of (key, value)
pairs — the same pairs and the same number of calls, though possibly in
a different order. -/
theorem C8_behavioral_equivalence (ops : List Op) :
    List.Forall₂ outEquiv (hashRun Hash.SymTable_new ops)
      (listRun LL.SymTable_new ops) :=
  run_sim ops _ _ Inv_new

/-- C9: in every reachable hash-table state the bucket count is a member
of the prime sequence, so the expansion routine's linear search
terminates at an index inside the array, and whenever the routine can be
invoked (bucket count below 65521) the successor index it reads is also
inside the array. -/
theorem C9_bucket_count_invariant (t : Hash.SymTable) (h : Reachable t) :
    t.numBuckets ∈ primeBuckCounts ∧
    (∃ i, findPrimeIdx primeBuckCounts t.numBuckets = some i ∧
      i < primeBuckCounts.length) ∧
    (t.numBuckets < 65521 →
      ∃ i, findPrimeIdx primeBuckCounts t.numBuckets = some i ∧
        i + 1 < primeBuckCounts.length) := by
  have hWF := reachable_WF t h
  obtain ⟨i, hfind, hlt, hsucc⟩ := findPrimeIdx_bounds _ hWF.1
  exact ⟨hWF.1, ⟨i, hfind, hlt⟩, fun hm => ⟨i, hfind, hsucc hm⟩⟩

/-- C9 witness: the fresh table is reachable and its bucket count 509 is
found at index 0 with the successor access in bounds. -/
theorem C9_bucket_count_invariant_witness :
    Reachable Hash.SymTable_new ∧
    Hash.SymTable_new.numBuckets ∈ primeBuckCounts ∧
    ∃ i, findPrimeIdx primeBuckCounts Hash.SymTable_new.numBuckets = some i ∧
      i + 1 < primeBuckCounts.length :=
  ⟨⟨[], rfl⟩, (C9_bucket_count_invariant Hash.SymTable_new ⟨[], rfl⟩).1,
    (C9_bucket_count_invariant Hash.SymTable_new ⟨[], rfl⟩).2.2 (by decide)⟩

/-- C10: in both implementations a traversal with a null callback
pointer fails the assertion and aborts (result `none`) — it is never
silently ignored and never reported as an ordinary result — and the
traversal runs exactly when both the table and the callback are
non-null. -/
theorem C10_map_null_callback :
    (∀ t : Hash.SymTable, Hash.SymTable_map_c (some t) none = none) ∧
    (∀ lt : LL.SymTable, LL.SymTable_map_c (some lt) none = none) ∧
    (∀ f, Hash.SymTable_map_c none f = none) ∧
    (∀ f, LL.SymTable_map_c none f = none) ∧
    (∀ (t : Hash.SymTable) f, Hash.SymTable_map_c (some t) (some f) =
      some (Hash.SymTable_map t)) ∧
    (∀ (lt : LL.SymTable) f, LL.SymTable_map_c (some lt) (some f) =
      some (LL.SymTable_map lt)) :=
  ⟨fun _ => rfl, fun _ => rfl, fun f => by cases f <;> rfl,
    fun f => by cases f <;> rfl, fun _ _ => rfl, fun _ _ => rfl⟩

end SymbolTable
